import Mathlib

/-!
Verification of the 4store on-disk storage primitives (lockable files, the
append-only record `List`, the `ModelHash` and the `ResourceHash`) against
their natural-language specification.

The C sources under `src/backend/` are shallowly embedded: every store
becomes a Lean structure holding the data the C code keeps in the file and
in memory, and every operation becomes a pure function threading that
state.  File bytes are modelled as `List Nat` (each element a byte value),
64-bit quantities as `Nat` (the C arithmetic on them never overflows in
the modelled paths; masking with `size - 1` is kept literally as `&&&`).
Fallible operations return `Option`; `fs_rhash_put_r`, which recurses
after doubling the table, takes explicit fuel.  Reads past the physical
end of a (sparse, hole-backed) file yield zero bytes, modelled by `getD`
with a blank entry.
-/

set_option autoImplicit false

namespace FourStore

/-! ## Lockable files (`src/backend/lockable.c`) -/

/-- The `LOCK_SH` flag of `flock(2)` (`sys/file.h`). -/
def LOCK_SH : Nat := 1

/-- The `LOCK_EX` flag of `flock(2)`. -/
def LOCK_EX : Nat := 2

/-- The `LOCK_UN` flag of `flock(2)`. -/
def LOCK_UN : Nat := 8

/-- State of `struct _fs_lockable_t` relevant to locking: the recorded lock
type (`locktype`) together with the container state `st` (the file contents
and the in-memory fields of the concrete container).  The fd, filename and
flags words play no role in the modelled logic.  The cached `mtime` and the
`fstat`-based metadata revalidation are not modelled: the model is
single-process, so the file's mtime never moves beyond the cached value and
`read_metadata` is never re-triggered on acquisition. -/
structure Lockable (α : Type) where
  locktype : Nat
  st : α
deriving DecidableEq, Repr

/-- The `fs_lockable_lock` routine (`lockable.c:44-100`).  `wmeta` is the
container's `write_metadata` callback, invoked (followed by an `fsync`,
which has no effect in the model) when an exclusive lock is released.
`flock` itself always succeeds in the model (no contention, no I/O error).
Returns the C result code (`0` ok, `-1` error) with the resulting state;
error returns leave the state untouched, as the C code returns before
mutating anything. -/
def fs_lockable_lock {α : Type} (wmeta : α → α) (lk : Lockable α) (operation : Nat) :
    Int × Lockable α :=
  -- It is an error to try to upgrade / downgrade locks
  if (operation &&& LOCK_EX ≠ 0 ∧ lk.locktype &&& LOCK_SH ≠ 0) ∨
     (operation &&& LOCK_SH ≠ 0 ∧ lk.locktype &&& LOCK_EX ≠ 0) then
    (-1, lk)
  -- It is an error to request a lock while holding one already
  else if (operation &&& lk.locktype) &&& (LOCK_SH ||| LOCK_EX) ≠ 0 then
    (-1, lk)
  -- if we are unlocking while holding a write lock, flush data first;
  -- then release or acquire the lock and record the new lock type
  else if lk.locktype &&& LOCK_EX ≠ 0 ∧ operation &&& LOCK_UN ≠ 0 then
    (0, { lk with st := wmeta lk.st, locktype := operation })
  else
    (0, { lk with locktype := operation })

/-- The `fs_lockable_test` macro (`lockable.h`): whether the held lock type
intersects `op`. -/
def fs_lockable_test {α : Type} (lk : Lockable α) (op : Nat) : Bool :=
  lk.locktype &&& op ≠ 0

/-! ## The append-only record list (`src/backend/list.c`) -/

/-- One record of a `List` file: `width` bytes. -/
abbrev Row := List Nat

/-- The `LIST_BUFFER_SIZE` constant of `list.c`. -/
def LIST_BUFFER_SIZE : Nat := 256

/-- The `CHUNK_SIZE` constant of `list.c` (`131072*4096` bytes). -/
def CHUNK_SIZE : Nat := 131072 * 4096

/-- Sort state of a list (`enum sort_state`). -/
inductive SortState where
  | unsorted
  | chunk_sorted
  | sorted
deriving DecidableEq, Repr

/-- Transient merge cursors of a sorted-uniq traversal (the `chunk_pos`,
`chunk_end`, `last` and `count` fields of `struct _fs_list`; `map` is the
read-only mmap of the whole file, which in the model is just `rows`).
Positions are byte offsets into the file, as in the C code. -/
structure FsListMerge where
  chunkPos : List Nat
  chunkEnd : List Nat
  last : Row
  count : Nat
deriving DecidableEq, Repr

/-- State of `struct _fs_list`: record width in bytes, the on-disk records
(`offset` is `rows.length`), the in-memory append buffer (`buffer_pos` is
`buffer.length`), the current file position `pos` in record units (the C
code keeps it in bytes; it is always a multiple of `width`), the sort
state, and the merge cursors when a sorted-uniq traversal is active. -/
structure FsList where
  width : Nat
  rows : List Row
  buffer : List Row
  pos : Nat
  sort : SortState
  merge : Option FsListMerge
deriving DecidableEq, Repr

/-- The `fs_list_flush` routine (`list.c:134-157`): seek to `offset*width`,
write out the buffer, reset `buffer_pos` and recompute `offset` from the
file length; the file position is left at the end of the file. -/
def fs_list_flush (l : FsList) : FsList :=
  { l with rows := l.rows ++ l.buffer, buffer := [],
           pos := l.rows.length + l.buffer.length }

/-- The `fs_list_add_r` routine (`list.c:170-186`): flush the buffer when it
holds `LIST_BUFFER_SIZE` records, then append the record to the buffer.
Returns the new state and the record's zero-based position
(`offset + buffer_pos - 1` after the increment).  The caller must hold
`LOCK_EX` (`fs_assert` in the source). -/
def fs_list_add_r (l : FsList) (data : Row) : FsList × Nat :=
  let l := if l.buffer.length = LIST_BUFFER_SIZE then fs_list_flush l else l
  ({ l with buffer := l.buffer ++ [data] }, l.rows.length + l.buffer.length)

/-- The `fs_list_length_r` routine (`list.c:235-240`): `offset + buffer_pos`. -/
def fs_list_length_r (l : FsList) : Nat := l.rows.length + l.buffer.length

/-- The `fs_list_rewind_r` routine (`list.c:242-247`): seek to 0. -/
def fs_list_rewind_r (l : FsList) : FsList := { l with pos := 0 }

/-- The `fs_list_next_value_r` routine (`list.c:346-365`): read the next
`width` bytes at the current file position; `some row` on success (C
returns 1), `none` at end of file (C returns 0). -/
def fs_list_next_value_r (l : FsList) : Option Row × FsList :=
  if h : l.pos < l.rows.length then
    (some (l.rows.get ⟨l.pos, h⟩), { l with pos := l.pos + 1 })
  else
    (none, l)

/-- Driver that calls `fs_list_next_value_r` repeatedly, collecting the
records it yields, with explicit fuel (one unit per read). -/
def fs_list_readAux : Nat → FsList → List Row × FsList
  | 0, l => ([], l)
  | fuel+1, l =>
    match fs_list_next_value_r l with
    | (some row, l') =>
      let p := fs_list_readAux fuel l'
      (row :: p.1, p.2)
    | (none, l') => ([], l')

/-- Stream the whole file from the current position via
`fs_list_next_value_r`, returning the records and the final state. -/
def fs_list_readAllS (l : FsList) : List Row × FsList :=
  fs_list_readAux (l.rows.length - l.pos) l

/-- Insert a record into an already sorted run, before the first record it
compares less-or-equal to (so the sort below is stable). -/
def insertRow (le : Row → Row → Bool) (x : Row) : List Row → List Row
  | [] => [x]
  | y :: ys => if le x y then x :: y :: ys else y :: insertRow le x ys

/-- The comparator-driven in-place sort of one chunk
(`fs_list_sort_chunk`, `list.c:453-471`).  The C code calls `qsort`, whose
order among `cmp`-equal elements is unspecified; the model fixes the stable
insertion-sort refinement of the same comparator. -/
def sortRowsByCmp (cmp : Row → Row → Int) (xs : List Row) : List Row :=
  xs.foldr (insertRow (fun a b => cmp a b ≤ 0)) []

/-- Sort each consecutive region of `cr` records independently, as the loop
of `fs_list_sort_chunked_r` does.  Structural recursion on fuel (one unit
per chunk suffices; one per record certainly does). -/
def sortChunksAux (cmp : Row → Row → Int) (cr : Nat) : Nat → List Row → List Row
  | 0, xs => xs
  | fuel+1, xs =>
    if xs = [] ∨ cr = 0 then xs
    else sortRowsByCmp cmp (xs.take cr) ++ sortChunksAux cmp cr fuel (xs.drop cr)

/-- Sort every `cr`-record chunk of `xs` in place (`cr` is
`CHUNK_SIZE / width`; `cr > 0` because `fs_list_open_filename` requires
`width` to divide `CHUNK_SIZE`). -/
def sortChunks (cmp : Row → Row → Int) (cr : Nat) (xs : List Row) : List Row :=
  sortChunksAux cmp cr xs.length xs

/-- The `fs_list_sort_chunked_r` routine (`list.c:513-539`): flush, sort
each `CHUNK_SIZE`-byte chunk in place, and set the sort state to `sorted`
when a single chunk covers the file, else `chunk_sorted`. -/
def fs_list_sort_chunked_r (cmp : Row → Row → Int) (l : FsList) : FsList :=
  let l := fs_list_flush l
  let cr := CHUNK_SIZE / l.width
  { l with rows := sortChunks cmp cr l.rows,
           sort := if l.rows.length ≤ cr then .sorted else .chunk_sorted }

/-- Read the record at byte offset `p` of the merge mmap
(`l->map + p`; `p` is always a multiple of `width`). -/
def readRow (rows : List Row) (width : Nat) (p : Nat) : Row :=
  rows.getD (p / width) (List.replicate width 0)

/-- The best-chunk scan of `fs_list_next_sort_uniqed_r` (`list.c:296-305`):
skip exhausted chunks; pick the chunk whose current record is smallest
under `cmp`, the leftmost on ties (the candidate is replaced only on a
strictly smaller record). -/
def mergeBest (cmp : Row → Row → Int) (rows : List Row) (width : Nat)
    (ms : FsListMerge) : Option Nat :=
  (List.range ms.chunkPos.length).foldl
    (fun best c =>
      if ms.chunkEnd.getD c 0 ≤ ms.chunkPos.getD c 0 then best
      else match best with
        | none => some c
        | some b =>
          if cmp (readRow rows width (ms.chunkPos.getD c 0))
                 (readRow rows width (ms.chunkPos.getD b 0)) < 0
          then some c else best)
    none

/-- One pass of the merge loop of `fs_list_next_sort_uniqed_r`
(`list.c:295-342`), including the `goto again` duplicate-skipping loop,
with explicit fuel (each iteration advances one cursor by one record, so
`rows.length + 1` fuel always suffices).  Result: the emitted record (or
`none` at end of merge, C return 0) and the updated cursors (`none` when
the merge finished and the cursors were freed). -/
def fs_list_merge_step (cmp : Row → Row → Int) (rows : List Row) (width : Nat) :
    Nat → FsListMerge → Option Row × Option FsListMerge
  | 0, ms => (none, some ms)
  | fuel+1, ms =>
    match mergeBest cmp rows width ms with
    | none => (none, none)
    | some c =>
      let row := readRow rows width (ms.chunkPos.getD c 0)
      let ms' : FsListMerge :=
        { ms with chunkPos := ms.chunkPos.set c (ms.chunkPos.getD c 0 + width),
                  count := ms.count + 1 }
      if row = ms.last then
        -- byte-equal to the last emitted record: skip it (uniq)
        fs_list_merge_step cmp rows width fuel ms'
      else
        (some row, some { ms' with last := row })

/-- Merge-cursor initialisation on the first `fs_list_next_sort_uniqed_r`
call (`list.c:266-293`): one cursor per `CHUNK_SIZE`-byte chunk, the last
chunk ending at `offset*width`, and `last` a `calloc`ed (all-zero) record.
The `chunk_length` consistency check always passes because `width` divides
`CHUNK_SIZE`, and is not modelled. -/
def fs_list_merge_init (l : FsList) : FsListMerge :=
  let chunks := (l.rows.length * l.width) / CHUNK_SIZE + 1
  { chunkPos := (List.range chunks).map (fun c => c * CHUNK_SIZE),
    chunkEnd := (((List.range chunks).map (fun c => (c + 1) * CHUNK_SIZE)).set
                  (chunks - 1) (l.rows.length * l.width)),
    last := List.replicate l.width 0,
    count := 0 }

/-- The `fs_list_next_sort_uniqed_r` routine (`list.c:250-342`).  The first
component records whether the "tried to call on unsorted list" warning was
logged; on unsorted state the C code falls back to `fs_list_next_value_r`.
The comparator is the one stored in `l->sort_func` by the sort call. -/
def fs_list_next_sort_uniqed_r (cmp : Row → Row → Int) (l : FsList) :
    Bool × Option Row × FsList :=
  match l.sort with
  | .unsorted =>
    let r := fs_list_next_value_r l
    (true, r.1, r.2)
  | .sorted | .chunk_sorted =>
    let ms := match l.merge with
      | some ms => ms
      | none => fs_list_merge_init l
    match fs_list_merge_step cmp l.rows l.width (l.rows.length + 1) ms with
    | (out, some ms') => (false, out, { l with merge := some ms' })
    | (out, none) => (false, out, { l with merge := none })

/-- Append a sequence of records with `fs_list_add_r`. -/
def fs_list_addAll (l : FsList) (rs : List Row) : FsList :=
  rs.foldl (fun l r => (fs_list_add_r l r).1) l

/-- Driver for the List round-trip scenario: acquire `LOCK_EX`, append the
records with `fs_list_add_r`, release the lock (releasing `LOCK_EX` flushes
through the list's `write_metadata` hook, which is `fs_list_flush`,
`list.c:105`), re-acquire `LOCK_SH`, and seek back to position 0.  Returns
the three lock result codes and the final list state. -/
def listSession (lk0 : Lockable FsList) (rs : List Row) :
    Int × Int × Int × FsList :=
  let r1 := fs_lockable_lock fs_list_flush lk0 LOCK_EX
  let r3 := fs_lockable_lock fs_list_flush
    { r1.2 with st := fs_list_addAll r1.2.st rs } LOCK_UN
  let r4 := fs_lockable_lock fs_list_flush r3.2 LOCK_SH
  (r1.1, r3.1, r4.1, fs_list_rewind_r r4.2.st)

/-- A lexicographic byte comparator, an example of a caller-supplied total
order for the sort routines. -/
def cmpBytes : List Nat → List Nat → Int
  | [], [] => 0
  | [], _ :: _ => -1
  | _ :: _, [] => 1
  | a :: as, b :: bs => if a < b then -1 else if b < a then 1 else cmpBytes as bs

/-! ## The model hash (`src/backend/mhash.c`) -/

/-- A packed 12-byte `fs_mhash_entry`: `{rid : u64, val : u32}`. -/
structure MEntry where
  rid : Nat
  val : Nat
deriving DecidableEq, Repr

/-- An all-zero (unused) model-hash entry; unwritten parts of the sparse
file also read back as this. -/
def blankM : MEntry := ⟨0, 0⟩

/-- A single file write: byte offset and length.  Used to trace the writes
a grow operation issues. -/
structure FWrite where
  offset : Nat
  len : Nat
deriving DecidableEq, Repr

/-- Size of `struct mhash_header` (512 bytes, block aligned). -/
def mhashHeaderSize : Nat := 512

/-- Size of a packed `fs_mhash_entry` (12 bytes). -/
def mhashEntrySize : Nat := 12

/-- State of `struct _fs_mhash`: the header fields cached in memory
(`mh_size`, `mh_count` — an `int32_t`, hence `Int` —, `mh_search_dist`)
and the on-disk entry array that follows the 512-byte header. -/
structure FsMhash where
  size : Nat
  count : Int
  searchDist : Nat
  entries : List MEntry
deriving DecidableEq, Repr

/-- The `FS_MHASH_ENTRY` macro (`mhash.c:47`): home slot
`(rid >> 10) & (mh_size - 1)`. -/
def FS_MHASH_ENTRY (mh : FsMhash) (rid : Nat) : Nat :=
  (rid >>> 10) &&& (mh.size - 1)

/-- Result of the probe loop of `fs_mhash_put_r` (`mhash.c:204-244`):
a slot holding `rid` was found; or the loop stopped at the remembered
empty candidate slot (re-reading it); or neither was found within the
window and the table must grow. -/
inductive MProbe where
  | found (entry : Nat) (e : MEntry)
  | cand (entry : Nat) (e : MEntry)
  | overfull
deriving DecidableEq, Repr

/-- The probe loop of `fs_mhash_put_r`.  `j` is the remaining probe budget
(`search_dist - i`; the C loop exits when `i == search_dist` or when the
last slot `size - 1` was probed, wrap-around is not performed).  The
candidate is the first empty slot seen. -/
def mhashProbeAux (ents : List MEntry) (size rid : Nat) :
    Nat → Nat → Option Nat → MProbe
  | entry, 0, candidate =>
    let e := ents.getD entry blankM
    if e.rid = rid then .found entry e
    else
      match (if e.rid = 0 ∧ candidate = none then some entry else candidate) with
      | some c => .cand c (ents.getD c blankM)
      | none => .overfull
  | entry, j+1, candidate =>
    let e := ents.getD entry blankM
    if e.rid = rid then .found entry e
    else
      let candidate := if e.rid = 0 ∧ candidate = none then some entry else candidate
      if entry = size - 1 then
        match candidate with
        | some c => .cand c (ents.getD c blankM)
        | none => .overfull
      else mhashProbeAux ents size rid (entry+1) j candidate

/-- Probe for `rid` starting at its home slot, as `fs_mhash_put_r` does. -/
def mhashProbe (mh : FsMhash) (rid : Nat) : MProbe :=
  mhashProbeAux mh.entries mh.size rid (FS_MHASH_ENTRY mh rid) mh.searchDist none

/-- The `double_size` routine of `mhash.c` (`mhash.c:281-314`), with the
trace of the `pwrite` calls it issues.  `mh_size` doubles,
`mh_search_dist` doubles then increments; every occupied entry whose new
home (computed with the doubled size) lies in the upper half is blanked at
its old slot and written at `old_size + i`.  Slots of the upper half that
are not written are file holes and read back as `blankM`. -/
def fs_mhash_double_size (mh : FsMhash) : FsMhash × List FWrite :=
  let oldsize := mh.size
  let msize := 2 * mh.size
  let moved := fun (e : MEntry) => e.rid ≠ 0 ∧ oldsize ≤ ((e.rid >>> 10) &&& (msize - 1))
  ({ mh with
      size := msize
      searchDist := 2 * mh.searchDist + 1
      entries := mh.entries.map (fun e => if moved e then blankM else e)
                 ++ mh.entries.map (fun e => if moved e then e else blankM) },
   (mh.entries.enum.filter (fun p => moved p.2)).flatMap (fun p =>
      [⟨mhashHeaderSize + p.1 * mhashEntrySize, mhashEntrySize⟩,
       ⟨mhashHeaderSize + (oldsize + p.1) * mhashEntrySize, mhashEntrySize⟩]))

/-- The `fs_mhash_put_r` routine (`mhash.c:198-267`), with fuel for the
retry after `double_size`.  Returns the C result code and the new state;
I/O failures are not modelled. -/
def fs_mhash_put_r : Nat → FsMhash → Nat → Nat → Option (Int × FsMhash)
  | 0, _, _, _ => none
  | fuel+1, mh, rid, val =>
    match mhashProbe mh rid with
    | .overfull => fs_mhash_put_r fuel (fs_mhash_double_size mh).1 rid val
    | .found entry e | .cand entry e =>
      -- if there's no changes to be made we don't want to write anything
      if e.rid = rid ∧ e.val = val then some (0, mh)
      else
        let oldval := e.val
        let mh' := { mh with entries := mh.entries.set entry ⟨rid, val⟩ }
        some (0,
          if val ≠ 0 then
            (if oldval = 0 then { mh' with count := mh'.count + 1 } else mh')
          else
            (if oldval ≠ 0 then { mh' with count := mh'.count - 1 } else mh'))

/-- The probe loop of `fs_mhash_get_r` (`mhash.c:323-336`): up to
`search_dist` probes from the home slot, stepping by
`(entry + 1) & (size - 1)` and breaking when the step wraps to 0.
`j` is the remaining probe budget. -/
def mhashFindAux (ents : List MEntry) (size rid : Nat) : Nat → Nat → Option MEntry
  | _, 0 => none
  | entry, j+1 =>
    let e := ents.getD entry blankM
    if e.rid = rid then some e
    else
      let entry := (entry + 1) &&& (size - 1)
      if entry = 0 then none else mhashFindAux ents size rid entry j

/-- Probe for `rid` from its home slot as `fs_mhash_get_r` does, returning
the first matching entry. -/
def mhashFind (mh : FsMhash) (rid : Nat) : Option MEntry :=
  mhashFindAux mh.entries mh.size rid (FS_MHASH_ENTRY mh rid) mh.searchDist

/-- Plain linear scan: the first entry among positions
`start, …, start+len-1` whose rid is `rid`.  `mhashFindAux` reduces to
this (with the window clipped at the last slot) because its wrap-around
step immediately breaks the loop. -/
def mscan (ents : List MEntry) (rid : Nat) : Nat → Nat → Option MEntry
  | _, 0 => none
  | start, len+1 =>
    let e := ents.getD start blankM
    if e.rid = rid then some e else mscan ents rid (start+1) len

/-- The `fs_mhash_get_r` routine (`mhash.c:316-341`): the value of the
first matching entry, `0` when no probe matches (the C code sets
`*val = 0` and still returns success). -/
def fs_mhash_get_r (mh : FsMhash) (rid : Nat) : Nat :=
  match mhashFind mh rid with
  | some e => e.val
  | none => 0

/-! ## The resource hash (`src/backend/rhash.c`) -/

/-- Size of `struct rhash_header` (512 bytes, block aligned). -/
def rhashHeaderSize : Nat := 512

/-- Size of a packed `fs_rhash_entry` (32 bytes). -/
def rhashEntrySize : Nat := 32

/-- The `INLINE_STR_LEN` constant of `rhash.c`. -/
def INLINE_STR_LEN : Nat := 15

/-- The `FS_MAX_PREFIXES` constant of `rhash.c`. -/
def FS_MAX_PREFIXES : Nat := 256

/-- The `val` union of `fs_rhash_entry`: either the 15 inline string bytes
(`val.str`) or an offset into the lex file (`val.offset`). -/
inductive RVal where
  | bytes (bs : List Nat)
  | off (o : Nat)
deriving DecidableEq, Repr

/-- A packed 32-byte `fs_rhash_entry`.  `aval` is the
`union {attr : u64; pstr : u8[8]}` as its little-endian 64-bit value (the
on-disk format is host-endian; x86-64 is assumed, as 4store does). -/
structure REntry where
  rid : Nat
  aval : Nat
  val : RVal
  disp : Char
deriving DecidableEq, Repr

/-- An all-zero resource-hash entry; unwritten parts of the sparse file
(including the pre-grown region past the last entry) read back as this. -/
def blankR : REntry := ⟨0, 0, .bytes (List.replicate INLINE_STR_LEN 0), Char.ofNat 0⟩

/-- An `fs_resource`: rid, attribute rid, and the bytes of the
NUL-terminated lexical form (so no element is 0). -/
structure FsResource where
  rid : Nat
  attr : Nat
  lex : List Nat
deriving DecidableEq, Repr

/-- The zlib `compress`/`uncompress` pair, an external collaborator.
`comp l` is the compressed form (or `none` on any zlib failure);
`uncomp src destLen` inflates `src` into a buffer of capacity `destLen`. -/
structure ZCodec where
  comp : List Nat → Option (List Nat)
  uncomp : List Nat → Nat → Option (List Nat)

/-- State of `struct _fs_rhash`: the header fields (`size` in buckets,
`bucket_size`, `search_dist`, `count`), the mmapped entry array, the bytes
of the auxiliary `.lex` file, the in-memory prefix dictionary
(`prefix_strings`, indexed by code; `prefix_count` is its length), and
whether the file was opened writable.  The sibling `.prefixes` List and
the prefix-discovery trie are kept abstract: the dictionary contents stand
for both. -/
structure FsRhash where
  size : Nat
  bucketSize : Nat
  searchDist : Nat
  count : Nat
  entries : List REntry
  lexFile : List Nat
  prefixes : List (List Nat)
  writable : Bool
deriving DecidableEq, Repr

/-- The `FS_RHASH_ENTRY` macro (`rhash.c:51`): leftmost entry of the home
bucket, `((rid >> 10) & (size - 1)) * bucket_size`. -/
def FS_RHASH_ENTRY (rh : FsRhash) (rid : Nat) : Nat :=
  ((rid >>> 10) &&& (rh.size - 1)) * rh.bucketSize

/-- Modelled from the spec: `fs_prefix_trie_get_code` (`prefix-trie.c` is
not among the sources).  Per the spec the branch fires when "the
`prefixes` dictionary matches a non-empty prefix of the lex"; the model
returns the code and length of the longest registered prefix of `lex`
(the first such code on ties), `none` when no non-empty registered prefix
matches. -/
def getCodeStep (prefixes : List (List Nat)) (lex : List Nat)
    (best : Option (Nat × Nat)) (c : Nat) : Option (Nat × Nat) :=
  let p := prefixes.getD c []
  if p ≠ [] ∧ p.isPrefixOf lex then
    match best with
    | none => some (c, p.length)
    | some b => if b.2 < p.length then some (c, p.length) else best
  else best

/-- Scan the whole dictionary with `getCodeStep` (see its doc comment). -/
def fs_prefix_trie_get_code (prefixes : List (List Nat)) (lex : List Nat) :
    Option (Nat × Nat) :=
  (List.range prefixes.length).foldl (getCodeStep prefixes lex) none

/-- The BCD nibble of a byte (`enum bcd` and the `switch` of
`compress_bcd`): digits `1`..`9` are 1..9, `0` is 10, `.` 11, `+` 12,
`-` 13, `e` 14; `none` for a character the encoding cannot handle. -/
def bcdCode (c : Nat) : Option Nat :=
  if 49 ≤ c ∧ c ≤ 57 then some (c - 48)
  else if c = 48 then some 10
  else if c = 46 then some 11
  else if c = 43 then some 12
  else if c = 45 then some 13
  else if c = 101 then some 14
  else none

/-- The `bcd_map` table of `rhash.c` as byte values:
`\0 1 2 3 4 5 6 7 8 9 0 . + - e ?`. -/
def bcd_map : List Nat := [0, 49, 50, 51, 52, 53, 54, 55, 56, 57, 48, 46, 43, 45, 101, 63]

/-- The BCDate nibble of a byte (`enum bcdate`): digits as in BCD, `:` 11,
`+` 12, `-` 13, `T` 14, `Z` 15. -/
def bcdateCode (c : Nat) : Option Nat :=
  if 49 ≤ c ∧ c ≤ 57 then some (c - 48)
  else if c = 48 then some 10
  else if c = 58 then some 11
  else if c = 43 then some 12
  else if c = 45 then some 13
  else if c = 84 then some 14
  else if c = 90 then some 15
  else none

/-- The `bcdate_map` table of `rhash.c` as byte values:
`\0 1 2 3 4 5 6 7 8 9 0 : + - T Z`. -/
def bcdate_map : List Nat := [0, 49, 50, 51, 52, 53, 54, 55, 56, 57, 48, 58, 43, 45, 84, 90]

/-- Pack a nibble sequence into the 15 `val.str` bytes, low nibble first
(`write_bcd`); missing nibbles are the zero terminator left by `memset`. -/
def packNibbles (ns : List Nat) : List Nat :=
  (List.range INLINE_STR_LEN).map (fun k => ns.getD (2*k) 0 + 16 * ns.getD (2*k+1) 0)

/-- The `compress_bcd` routine (`rhash.c:1041-1147`): `none` when the
string is over 30 characters or contains a character outside the BCD
alphabet (C returns 1), else the packed 15 bytes. -/
def compress_bcd (l : List Nat) : Option (List Nat) :=
  if INLINE_STR_LEN * 2 < l.length then none
  else (l.mapM bcdCode).map packNibbles

/-- The `compress_bcdate` routine (`rhash.c:1149-1261`). -/
def compress_bcdate (l : List Nat) : Option (List Nat) :=
  if INLINE_STR_LEN * 2 < l.length then none
  else (l.mapM bcdateCode).map packNibbles

/-- Unpack the 30 nibbles of the 15 `val.str` bytes (low nibble first, as
`uncompress_bcd` reads them: `code &= 15` when the position is even,
`code >>= 4` when odd). -/
def unpackNibbles (bs : List Nat) : List Nat :=
  (List.range (INLINE_STR_LEN * 2)).map
    (fun i =>
      let b := bs.getD (i / 2) 0
      if i % 2 = 0 then b &&& 15 else b >>> 4)

/-- The `uncompress_bcd` routine (`rhash.c:1263-1281`): decode nibbles via
`bcd_map` until the zero terminator. -/
def uncompress_bcd (bs : List Nat) : List Nat :=
  ((unpackNibbles bs).takeWhile (· ≠ 0)).map (fun c => bcd_map.getD c 0)

/-- The `uncompress_bcdate` routine (`rhash.c:1283-1301`). -/
def uncompress_bcdate (bs : List Nat) : List Nat :=
  ((unpackNibbles bs).takeWhile (· ≠ 0)).map (fun c => bcdate_map.getD c 0)

/-- NUL-pad a byte sequence to `n` bytes (the effect of `memset` 0 before a
`strncpy`). -/
def padTo (n : Nat) (l : List Nat) : List Nat := l ++ List.replicate (n - l.length) 0

/-- The little-endian 64-bit value of a byte sequence (how the `aval`
union reads bytes stored through `pstr`). -/
def packBytesLE (bs : List Nat) : Nat := bs.foldr (fun b acc => b + 256 * acc) 0

/-- Byte `i` of the little-endian value `a` (reading `pstr[i]`). -/
def avalByte (a i : Nat) : Nat := (a >>> (8 * i)) &&& 255

/-- Bytes `pstr[1..7]` of an `aval` value. -/
def pstrTail (a : Nat) : List Nat := (List.range 7).map (fun i => avalByte a (i+1))

/-- The little-endian bytes of an `int32_t` as written by
`fwrite(&len, sizeof(len), 1, f)` on a little-endian host. -/
def le32 (n : Nat) : List Nat := [n % 256, n / 256 % 256, n / 65536 % 256, n / 16777216 % 256]

/-- Read `n` bytes at byte offset `off` of the lex file; `none` when the
read would run past the end of the file (C `fread` short read). -/
def lexRead (f : List Nat) (off n : Nat) : Option (List Nat) :=
  if off + n ≤ f.length then some ((f.drop off).take n) else none

/-- Read a little-endian `int32_t` at byte offset `off` of the lex file. -/
def readLE32 (f : List Nat) (off : Nat) : Option Nat :=
  (lexRead f off 4).map (fun bs =>
    bs.getD 0 0 + 256 * bs.getD 1 0 + 65536 * bs.getD 2 0 + 16777216 * bs.getD 3 0)

/-- Result of the probe loop of `fs_rhash_put_r` (`rhash.c:440-448`): an
entry already holding the rid was found (put is a no-op); or the first
empty slot of the window to write into; or no slot (grow). -/
inductive RProbe where
  | found
  | empty (new : Nat)
  | overfull
deriving DecidableEq, Repr

/-- The probe loop of `fs_rhash_put_r`:
`for (i = 0; i < search_dist && entry + i < size*bucket_size; i++)`.
`j` is the remaining probe budget (`search_dist - i`), `idx` is
`entry + i`, `new` the first empty slot seen. -/
def rhashProbeAux (ents : List REntry) (rid bound : Nat) :
    Nat → Nat → Option Nat → RProbe
  | _, 0, new =>
    match new with
    | some n => .empty n
    | none => .overfull
  | idx, j+1, new =>
    if bound ≤ idx then
      match new with
      | some n => .empty n
      | none => .overfull
    else
      let e := ents.getD idx blankR
      if e.rid = rid then .found
      else rhashProbeAux ents rid bound (idx+1) j
        (if e.rid = 0 ∧ new = none then some idx else new)

/-- Probe for `rid` from home slot `entry` as `fs_rhash_put_r` does. -/
def rhashProbe (rh : FsRhash) (rid entry : Nat) : RProbe :=
  rhashProbeAux rh.entries rid (rh.size * rh.bucketSize) entry rh.searchDist none

/-- The `fs_rhash_ensure_size` routine (`rhash.c:332-355`): when the file
is writable, a single one-byte `pwrite` at offset
`sizeof(header) + size * bucket_size * sizeof(entry)` — one byte past the
new logical end of the file. -/
def rhash_ensure_size_writes (rh : FsRhash) : List FWrite :=
  if rh.writable then
    [⟨rhashHeaderSize + rh.size * rh.bucketSize * rhashEntrySize, 1⟩]
  else []

/-- The `double_size` routine of `rhash.c` (`rhash.c:627-661`), with the
trace of the `pwrite` calls it issues.  `header->size` doubles first, then
`fs_rhash_ensure_size` pre-grows the file and `fs_rhash_remap` re-mmaps
it; then, bucket by bucket, every entry whose new home (with the doubled
size) is at or beyond the old end moves to the same offset of the mirror
bucket at `i + old_size * bucket_size`, its old slot blanked.  The entry
moves happen through the mmap, so the only file write in the trace is the
pre-grow byte. -/
def fs_rhash_double_size (rh : FsRhash) : FsRhash × List FWrite :=
  let oldbound := rh.size * rh.bucketSize
  let rh' := { rh with size := 2 * rh.size }
  let tr := rhash_ensure_size_writes rh'
  let moved := fun (e : REntry) => e.rid ≠ 0 ∧ oldbound ≤ FS_RHASH_ENTRY rh' e.rid
  ({ rh' with
      entries := rh.entries.map (fun e => if moved e then blankR else e)
                 ++ rh.entries.map (fun e => if moved e then e else blankR) },
   tr)

/-- The encoding step of `fs_rhash_put_r` (`rhash.c:463-606`): build the
32-byte entry for the resource, appending to the lex file as required.
Modelling notes, in source order: the disposition ladder is inline UTF-8
(≤ 15 bytes), BCD, BCDate, prefix-coded (inline when the suffix fits in
22 bytes, else external), external (zlib-compressed when longer than 100
bytes and compression pays, else raw).  The prefix-discovery trie is
modelled from the spec as a black box that never reaches capacity, so no
prefixes are installed during a put.  For `DISP_I_PREFIX` the code
overwrites all eight `aval` bytes with the prefix code and the first seven
suffix bytes; for `DISP_F_PREFIX` only the low byte becomes the code. -/
def rhashEncode (isURI : Nat → Bool) (z : ZCodec) (rh : FsRhash) (res : FsResource) :
    REntry × List Nat :=
  let lexlen := res.lex.length
  if lexlen ≤ INLINE_STR_LEN then
    (⟨res.rid, res.attr, .bytes (padTo INLINE_STR_LEN res.lex), 'i'⟩, rh.lexFile)
  else match compress_bcd res.lex with
  | some bs => (⟨res.rid, res.attr, .bytes bs, 'N'⟩, rh.lexFile)
  | none => match compress_bcdate res.lex with
    | some bs => (⟨res.rid, res.attr, .bytes bs, 'D'⟩, rh.lexFile)
    | none =>
      match (if isURI res.rid then fs_prefix_trie_get_code rh.prefixes res.lex else none) with
      | some cl =>
        let code := cl.1
        let suffix := res.lex.drop cl.2
        if 22 < suffix.length then
          (⟨res.rid, (res.attr / 256) * 256 + code, .off rh.lexFile.length, 'P'⟩,
           rh.lexFile ++ le32 suffix.length ++ suffix ++ [0])
        else
          (⟨res.rid, packBytesLE (code :: padTo 7 (suffix.take 7)),
            .bytes (if 7 < suffix.length then padTo INLINE_STR_LEN (suffix.drop 7)
                    else List.replicate INLINE_STR_LEN 0),
            'p'⟩, rh.lexFile)
      | none =>
        match (if 100 < lexlen then z.comp res.lex else none) with
        | some out =>
          if out ≠ [] ∧ out.length < lexlen - 4 then
            (⟨res.rid, res.attr, .off rh.lexFile.length, 'Z'⟩,
             rh.lexFile ++ le32 out.length ++ le32 lexlen ++ out ++ [0])
          else
            (⟨res.rid, res.attr, .off rh.lexFile.length, 'f'⟩,
             rh.lexFile ++ le32 lexlen ++ res.lex ++ [0])
        | none =>
          (⟨res.rid, res.attr, .off rh.lexFile.length, 'f'⟩,
           rh.lexFile ++ le32 lexlen ++ res.lex ++ [0])

/-- The `fs_rhash_put_r` routine (`rhash.c:424-611`), with fuel for the
retry after `double_size`.  Returns the C result code and the new state;
I/O failures are not modelled.  The caller must hold `LOCK_EX`
(`fs_assert` in the source). -/
def fs_rhash_put_r (isURI : Nat → Bool) (z : ZCodec) :
    Nat → FsRhash → FsResource → Option (Int × FsRhash)
  | 0, _, _ => none
  | fuel+1, rh, res =>
    let entry := FS_RHASH_ENTRY rh res.rid
    if rh.size * rh.bucketSize ≤ entry then some (1, rh)
    else
      match rhashProbe rh res.rid entry with
      | .found => some (0, rh)
      | .overfull => fs_rhash_put_r isURI z fuel (fs_rhash_double_size rh).1 res
      | .empty new =>
        let el := rhashEncode isURI z rh res
        some (0, { rh with
                    entries := rh.entries.set new el.1
                    lexFile := el.2
                    count := rh.count + 1 })

/-- The `get_entry` routine (`rhash.c:691-834`): decode an entry into its
`(attr, lex)` pair using the prefix dictionary and the lex file.  `none`
models the error returns of the C code (bad offsets, short reads, bad
prefix codes, zlib failure, unknown disposition); reading an inline union
member of an entry that stores the other member is likewise `none` (no
put-built state does that).  On the bad-prefix path of `DISP_I_PREFIX`
the C code fills a `¡bad prefix!` diagnostic lex and still returns 0;
that diagnostic outcome is also modelled as `none`. -/
def get_entry (prefixes : List (List Nat)) (lexFile : List Nat) (z : ZCodec)
    (e : REntry) : Option (Nat × List Nat) :=
  if e.disp = 'i' then
    match e.val with
    | .bytes bs => some (e.aval, bs.takeWhile (· ≠ 0))
    | .off _ => none
  else if e.disp = 'N' then
    match e.val with
    | .bytes bs => some (e.aval, uncompress_bcd bs)
    | .off _ => none
  else if e.disp = 'D' then
    match e.val with
    | .bytes bs => some (e.aval, uncompress_bcdate bs)
    | .off _ => none
  else if e.disp = 'p' then
    let code := avalByte e.aval 0
    if prefixes.length ≤ code then none
    else match e.val with
      | .bytes bs =>
        some (e.aval,
          prefixes.getD code [] ++ (pstrTail e.aval).takeWhile (· ≠ 0)
            ++ bs.takeWhile (· ≠ 0))
      | .off _ => none
  else if e.disp = 'f' then
    match e.val with
    | .off o =>
      match readLE32 lexFile o with
      | some len =>
        match lexRead lexFile (o + 4) len with
        | some bs => some (e.aval, bs)
        | none => none
      | none => none
    | .bytes _ => none
  else if e.disp = 'P' then
    let code := avalByte e.aval 0
    if prefixes.length ≤ code then none
    else match e.val with
      | .off o =>
        match readLE32 lexFile o with
        | some slen =>
          match lexRead lexFile (o + 4) slen with
          | some suffix => some (e.aval, prefixes.getD code [] ++ suffix)
          | none => none
        | none => none
      | .bytes _ => none
  else if e.disp = 'Z' then
    match e.val with
    | .off o =>
      match readLE32 lexFile o with
      | some dlen =>
        match readLE32 lexFile (o + 4) with
        | some llen =>
          match lexRead lexFile (o + 8) dlen with
          | some data =>
            match z.uncomp data llen with
            | some out => some (e.aval, out.take llen)
            | none => none
          | none => none
        | none => none
      | none => none
    | .bytes _ => none
  else none

/-- The probe loop of `fs_rhash_get_r` (`rhash.c:857-861`):
`for (k = 0; k < search_dist; ++k)`, unbounded by the entry array (probes
past the last entry read from the pre-grown zero region, i.e. `blankR`).
`j` is the remaining probe budget. -/
def rhashFindAux (ents : List REntry) (rid : Nat) : Nat → Nat → Option REntry
  | _, 0 => none
  | idx, j+1 =>
    let e := ents.getD idx blankR
    if e.rid = rid then some e else rhashFindAux ents rid (idx+1) j

/-- Probe for `rid` from its home slot as `fs_rhash_get_r` does,
returning the first matching entry. -/
def rhashFind (rh : FsRhash) (rid : Nat) : Option REntry :=
  rhashFindAux rh.entries rid (FS_RHASH_ENTRY rh rid) rh.searchDist

/-- The `fs_rhash_get_r` routine (`rhash.c:849-869`): decode the first
matching entry; `none` models both the not-found path (C: warning, a
synthetic `¡resource not found!` lex, return 1) and a failing
`get_entry`.  The caller must hold a lock (`fs_assert` in the source). -/
def fs_rhash_get_r (z : ZCodec) (rh : FsRhash) (rid : Nat) : Option (Nat × List Nat) :=
  match rhashFind rh rid with
  | some e => get_entry rh.prefixes rh.lexFile z e
  | none => none

/-- Put a list of resources one after the other with `fs_rhash_put_r`,
failing if any put does not return 0. -/
def fs_rhash_putAll (isURI : Nat → Bool) (z : ZCodec) (fuel : Nat) :
    FsRhash → List FsResource → Option FsRhash
  | rh, [] => some rh
  | rh, r :: rs =>
    match fs_rhash_put_r isURI z fuel rh r with
    | some (0, rh') => fs_rhash_putAll isURI z fuel rh' rs
    | _ => none

/-- Well-formedness of a resource hash state: power-of-two bucket count, a
positive bucket size, an entry array of exactly `size * bucket_size`
entries, and at most `FS_MAX_PREFIXES` registered prefixes (all
invariants the C code maintains). -/
def RhashWF (rh : FsRhash) : Prop :=
  (∃ k, rh.size = 2 ^ k) ∧ 0 < rh.bucketSize ∧
  rh.entries.length = rh.size * rh.bucketSize ∧
  rh.prefixes.length ≤ FS_MAX_PREFIXES

/-- A resource as the C callers hand it over: a non-zero rid and a lex
that is a C string (no NUL bytes, byte values) short enough for its
`int32_t` length fields. -/
def ValidRes (r : FsResource) : Prop :=
  r.rid ≠ 0 ∧ (∀ c ∈ r.lex, 0 < c ∧ c < 256) ∧ r.lex.length < 2 ^ 31

/-- The zlib contract: whatever `compress` produced, `uncompress` restores
when given the original length as the destination capacity. -/
def ZCodecOK (z : ZCodec) : Prop :=
  ∀ l out, z.comp l = some out → z.uncomp out l.length = some l

/-- No entry of the table holds `rid`. -/
def RidAbsent (rh : FsRhash) (rid : Nat) : Prop := ∀ e ∈ rh.entries, e.rid ≠ rid

/-- Whether `fs_rhash_put_r` would store this resource prefix-coded
(disposition `p` or `P`): over 15 bytes, in neither the BCD nor the
BCDate alphabet, a URI, and some registered prefix matches.  This mirrors
the disposition ladder of `rhashEncode` and depends only on the prefix
dictionary, which puts never change in the model. -/
def rhashPrefixCoded (prefixes : List (List Nat)) (isURI : Nat → Bool)
    (res : FsResource) : Prop :=
  INLINE_STR_LEN < res.lex.length ∧ compress_bcd res.lex = none ∧
  compress_bcdate res.lex = none ∧ isURI res.rid = true ∧
  (fs_prefix_trie_get_code prefixes res.lex).isSome = true

/-! ## Helper lemmas -/

theorem mhashProbeAux_found_rid (ents : List MEntry) (size rid : Nat) :
    ∀ (j entry : Nat) (cand : Option Nat) (n : Nat) (e : MEntry),
      mhashProbeAux ents size rid entry j cand = .found n e → e.rid = rid := by
  intro j
  induction j with
  | zero =>
    intro entry cand n e h
    unfold mhashProbeAux at h
    by_cases hm : (ents.getD entry blankM).rid = rid
    · simp only [if_pos hm] at h
      cases h; exact hm
    · simp only [if_neg hm] at h
      rcases hc : (if (ents.getD entry blankM).rid = 0 ∧ cand = none
          then some entry else cand) with _ | c <;> rw [hc] at h <;> cases h
  | succ j ih =>
    intro entry cand n e h
    unfold mhashProbeAux at h
    by_cases hm : (ents.getD entry blankM).rid = rid
    · simp only [if_pos hm] at h
      cases h; exact hm
    · simp only [if_neg hm] at h
      by_cases hl : entry = size - 1
      · simp only [if_pos hl] at h
        rcases hc : (if (ents.getD entry blankM).rid = 0 ∧ cand = none
            then some entry else cand) with _ | c <;> rw [hc] at h <;> cases h
      · simp only [if_neg hl] at h
        exact ih _ _ _ _ h

theorem rhashProbeAux_found_lt (ents : List REntry) (rid bound : Nat) :
    ∀ (j entry : Nat) (new : Option Nat),
      rhashProbeAux ents rid bound entry j new = .found → entry < bound := by
  intro j entry new h
  cases j with
  | zero =>
    unfold rhashProbeAux at h
    rcases new with _ | c <;> simp at h
  | succ j =>
    unfold rhashProbeAux at h
    by_cases hb : bound ≤ entry
    · simp only [if_pos hb] at h
      rcases new with _ | c <;> simp at h
    · omega

/-! ## Claim C6 (lock discipline) -/

/-- C6: requesting `LOCK_EX` while holding `LOCK_SH` (or `LOCK_SH` while
holding `LOCK_EX`), or requesting a lock mode already held, makes
`fs_lockable_lock` return an error (`-1`) with the lock state and the
file unchanged. -/
theorem lockable_lock_rejects_bad_transitions {α : Type} (wmeta : α → α)
    (lk : Lockable α) (op : Nat)
    (h : (op &&& LOCK_EX ≠ 0 ∧ lk.locktype &&& LOCK_SH ≠ 0) ∨
         (op &&& LOCK_SH ≠ 0 ∧ lk.locktype &&& LOCK_EX ≠ 0) ∨
         (op &&& lk.locktype) &&& (LOCK_SH ||| LOCK_EX) ≠ 0) :
    fs_lockable_lock wmeta lk op = (-1, lk) := by
  unfold fs_lockable_lock
  rcases h with h | h | h
  · rw [if_pos (Or.inl h)]
  · rw [if_pos (Or.inr h)]
  · by_cases h2 : (op &&& LOCK_EX ≠ 0 ∧ lk.locktype &&& LOCK_SH ≠ 0) ∨
        (op &&& LOCK_SH ≠ 0 ∧ lk.locktype &&& LOCK_EX ≠ 0)
    · rw [if_pos h2]
    · rw [if_neg h2, if_pos h]

/-- Witness for C6: acquiring `LOCK_EX` while holding `LOCK_SH` fails and
leaves the state alone. -/
theorem lockable_lock_rejects_bad_transitions_witness :
    ((LOCK_EX &&& LOCK_EX ≠ 0 ∧ LOCK_SH &&& LOCK_SH ≠ 0) ∨
     (LOCK_EX &&& LOCK_SH ≠ 0 ∧ LOCK_SH &&& LOCK_EX ≠ 0) ∨
     (LOCK_EX &&& LOCK_SH) &&& (LOCK_SH ||| LOCK_EX) ≠ 0) ∧
    fs_lockable_lock (fun u : Unit => u) ⟨LOCK_SH, ()⟩ LOCK_EX = (-1, ⟨LOCK_SH, ()⟩) :=
  ⟨Or.inl ⟨by decide, by decide⟩,
   lockable_lock_rejects_bad_transitions (fun u : Unit => u) ⟨LOCK_SH, ()⟩ LOCK_EX
     (Or.inl ⟨by decide, by decide⟩)⟩

/-! ## Claim C9 (ModelHash home slots of rids 1024·i) -/

/-- C9 counterexample: with the default table size 4096, the rid `1024·1`
has home slot `1`, not `0`, so the rids `0, 1024, 2048, …` do not all
collide at home slot 0. -/
theorem mhash_spaced_rids_distinct_homes :
    FS_MHASH_ENTRY ⟨4096, 0, 16, []⟩ (1024 * 1) = 1 ∧ (1 : Nat) ≠ 0 := by decide

/-- C9 amended: with the home-slot function
`bucket(rid) = ((rid >> 10) & (size-1))` and a power-of-two table size,
the rid `1024·i` has home slot `i mod size` — the rids `1024·i` occupy
consecutive distinct home slots (for `i < size`) rather than all
colliding at slot 0. -/
theorem mhash_home_slot_of_spaced_rids (mh : FsMhash) (k i : Nat)
    (h : mh.size = 2 ^ k) :
    FS_MHASH_ENTRY mh (1024 * i) = i % mh.size := by
  unfold FS_MHASH_ENTRY
  rw [h, Nat.and_pow_two_sub_one_eq_mod, Nat.shiftRight_eq_div_pow]
  norm_num

/-- Witness for C9 amended: rid `1024·5` in a 4096-slot table lands in
home slot `5 % 4096 = 5`. -/
theorem mhash_home_slot_of_spaced_rids_witness :
    (FsMhash.mk 4096 0 16 []).size = 2 ^ 12 ∧
    FS_MHASH_ENTRY ⟨4096, 0, 16, []⟩ (1024 * 5) = 5 % 4096 :=
  ⟨by norm_num, mhash_home_slot_of_spaced_rids ⟨4096, 0, 16, []⟩ 12 5 (by norm_num)⟩

/-! ## Claim C10 (ModelHash write avoidance) -/

/-- C10: when the probe of `fs_mhash_put_r` finds an entry whose rid is
`rid` and whose stored value already equals `val`, the put returns
success and the state — entry array, header count, everything — is
unchanged (the C code returns before its `pwrite`). -/
theorem mhash_put_write_avoidance (fuel : Nat) (mh : FsMhash)
    (rid val entry : Nat) (e : MEntry)
    (hp : mhashProbe mh rid = .found entry e) (hv : e.val = val) :
    fs_mhash_put_r (fuel + 1) mh rid val = some (0, mh) := by
  have hrid : e.rid = rid := mhashProbeAux_found_rid _ _ _ _ _ _ _ _ hp
  unfold fs_mhash_put_r
  rw [hp]
  simp [hrid, hv]

/-- Witness for C10: a table holding `(rid 7, val 3)` at slot 0; putting
`(7, 3)` again is the identity. -/
theorem mhash_put_write_avoidance_witness :
    mhashProbe ⟨4, 1, 16, [⟨7, 3⟩, ⟨0, 0⟩, ⟨0, 0⟩, ⟨0, 0⟩]⟩ 7 = .found 0 ⟨7, 3⟩ ∧
    (MEntry.mk 7 3).val = 3 ∧
    fs_mhash_put_r 1 ⟨4, 1, 16, [⟨7, 3⟩, ⟨0, 0⟩, ⟨0, 0⟩, ⟨0, 0⟩]⟩ 7 3
      = some (0, ⟨4, 1, 16, [⟨7, 3⟩, ⟨0, 0⟩, ⟨0, 0⟩, ⟨0, 0⟩]⟩) :=
  ⟨by decide, rfl,
   mhash_put_write_avoidance 0 ⟨4, 1, 16, [⟨7, 3⟩, ⟨0, 0⟩, ⟨0, 0⟩, ⟨0, 0⟩]⟩ 7 3 0
     ⟨7, 3⟩ (by decide) rfl⟩

/-! ## Claim C8 (pre-grow on doubling) -/

/-- C8 counterexample: doubling a ModelHash that moves one entry issues
only whole-entry (12-byte) writes — there is no one-byte pre-grow write,
contradicting the claim that both hashes pre-grow the file by a single
one-byte write on doubling. -/
theorem mhash_double_size_no_pregrow :
    (fs_mhash_double_size ⟨1, 1, 16, [⟨1024, 5⟩]⟩).2 ≠ [] ∧
    ((fs_mhash_double_size ⟨1, 1, 16, [⟨1024, 5⟩]⟩).2.all
      (fun w => w.len = mhashEntrySize)) = true := by decide

/-- C8 amended: on every ResourceHash doubling (of a writable hash),
`fs_rhash_ensure_size` pre-grows the file by exactly one one-byte write at
offset `header + new_size·bucket_size·32` — one byte past the new logical
end — and this is the only file write of the doubling (the entry moves go
through the mmap); ModelHash doubling performs no such pre-grow: all its
writes are whole 12-byte entry writes. -/
theorem double_size_pregrow_writes (rh : FsRhash) (hw : rh.writable = true)
    (mh : FsMhash) :
    (fs_rhash_double_size rh).2
      = [⟨rhashHeaderSize + 2 * rh.size * rh.bucketSize * rhashEntrySize, 1⟩] ∧
    ∀ w ∈ (fs_mhash_double_size mh).2, w.len = mhashEntrySize := by
  constructor
  · simp only [fs_rhash_double_size, rhash_ensure_size_writes, hw, if_pos]
  · intro w hmem
    simp only [fs_mhash_double_size, List.mem_flatMap, List.mem_filter] at hmem
    rcases hmem with ⟨p, _, hw2⟩
    simp only [List.mem_cons, List.mem_singleton] at hw2
    rcases hw2 with h | h | h
    · rw [h]
    · rw [h]
    · cases h

/-- Witness for C8 amended: a concrete writable ResourceHash and the
ModelHash of the counterexample. -/
theorem double_size_pregrow_writes_witness :
    (FsRhash.mk 1 16 32 0 [] [] [] true).writable = true ∧
    ((fs_rhash_double_size ⟨1, 16, 32, 0, [], [], [], true⟩).2
      = [⟨rhashHeaderSize + 2 * 1 * 16 * rhashEntrySize, 1⟩] ∧
     ∀ w ∈ (fs_mhash_double_size ⟨1, 1, 16, [⟨1024, 5⟩]⟩).2, w.len = mhashEntrySize) :=
  ⟨rfl, double_size_pregrow_writes ⟨1, 16, 32, 0, [], [], [], true⟩ rfl ⟨1, 1, 16, [⟨1024, 5⟩]⟩⟩

/-! ## Claim C5 (ResourceHash put idempotence) -/

/-- C5: when the rid is already stored within the probe window of its home
slot, `fs_rhash_put_r` is a no-op: it returns success and the state —
header count, entry array, lex file — is byte-identical, whatever `attr`
and `lex` the second put supplies. -/
theorem rhash_put_already_present_noop (isURI : Nat → Bool) (z : ZCodec)
    (fuel : Nat) (rh : FsRhash) (res : FsResource)
    (hfound : rhashProbe rh res.rid (FS_RHASH_ENTRY rh res.rid) = .found) :
    fs_rhash_put_r isURI z (fuel + 1) rh res = some (0, rh) := by
  have hlt : FS_RHASH_ENTRY rh res.rid < rh.size * rh.bucketSize :=
    rhashProbeAux_found_lt _ _ _ _ _ _ hfound
  unfold fs_rhash_put_r
  rw [if_neg (by omega), hfound]

/-- Witness for C5: rid 9 stored inline at its home slot; a second put
with different attr and lex changes nothing. -/
theorem rhash_put_already_present_noop_witness :
    rhashProbe ⟨1, 2, 4, 1, [⟨9, 0, .bytes (List.replicate 15 0), 'i'⟩, blankR], [], [], true⟩
        9 (FS_RHASH_ENTRY ⟨1, 2, 4, 1, [⟨9, 0, .bytes (List.replicate 15 0), 'i'⟩, blankR], [], [], true⟩ 9)
      = .found ∧
    fs_rhash_put_r (fun _ => false) ⟨fun _ => none, fun _ _ => none⟩ 1
        ⟨1, 2, 4, 1, [⟨9, 0, .bytes (List.replicate 15 0), 'i'⟩, blankR], [], [], true⟩
        ⟨9, 77, [65, 66]⟩
      = some (0, ⟨1, 2, 4, 1, [⟨9, 0, .bytes (List.replicate 15 0), 'i'⟩, blankR], [], [], true⟩) :=
  ⟨by decide,
   rhash_put_already_present_noop (fun _ => false) ⟨fun _ => none, fun _ _ => none⟩ 0
     ⟨1, 2, 4, 1, [⟨9, 0, .bytes (List.replicate 15 0), 'i'⟩, blankR], [], [], true⟩
     ⟨9, 77, [65, 66]⟩ (by decide)⟩

/-! ## Claim C7 (sort-uniq iteration on an unsorted list) -/

/-- C7 counterexample: on an unsorted list holding one record and
positioned at 0, `fs_list_next_sort_uniqed_r` does not return 0 — it
returns the next record (return 1), because the C code falls back to
`fs_list_next_value_r` after logging the warning. -/
theorem next_sort_uniqed_unsorted_emits_record :
    (fs_list_next_sort_uniqed_r (fun _ _ => 0)
        ⟨1, [[5]], [], 0, .unsorted, none⟩).2.1 = some [5] ∧
    (fs_list_next_sort_uniqed_r (fun _ _ => 0)
        ⟨1, [[5]], [], 0, .unsorted, none⟩).2.1 ≠ none := by decide

/-- C7 amended: called on an unsorted list, `fs_list_next_sort_uniqed_r`
logs the warning and falls back to `fs_list_next_value_r`, returning its
result — the next record (1) when one remains, 0 only at end of file. -/
theorem next_sort_uniqed_unsorted_falls_back (cmp : Row → Row → Int)
    (l : FsList) (h : l.sort = .unsorted) :
    fs_list_next_sort_uniqed_r cmp l
      = (true, (fs_list_next_value_r l).1, (fs_list_next_value_r l).2) := by
  simp [fs_list_next_sort_uniqed_r, h]

/-- Witness for C7 amended: the unsorted one-record list. -/
theorem next_sort_uniqed_unsorted_falls_back_witness :
    (FsList.mk 1 [[5]] [] 0 .unsorted none).sort = .unsorted ∧
    fs_list_next_sort_uniqed_r (fun _ _ => 0) ⟨1, [[5]], [], 0, .unsorted, none⟩
      = (true, (fs_list_next_value_r ⟨1, [[5]], [], 0, .unsorted, none⟩).1,
         (fs_list_next_value_r ⟨1, [[5]], [], 0, .unsorted, none⟩).2) :=
  ⟨rfl, next_sort_uniqed_unsorted_falls_back (fun _ _ => 0)
     ⟨1, [[5]], [], 0, .unsorted, none⟩ rfl⟩

/-! ## Claim C4 (List round-trip) -/

theorem lock_acquire_from_un {α : Type} (w : α → α) (lk : Lockable α)
    (h : lk.locktype = LOCK_UN) (op : Nat) (hop : op = LOCK_SH ∨ op = LOCK_EX) :
    fs_lockable_lock w lk op = (0, ⟨op, lk.st⟩) := by
  rcases hop with hop | hop <;> subst hop <;>
    · unfold fs_lockable_lock
      rw [h, if_neg (by decide), if_neg (by decide), if_neg (by decide)]

theorem lock_release_ex {α : Type} (w : α → α) (lk : Lockable α)
    (h : lk.locktype = LOCK_EX) :
    fs_lockable_lock w lk LOCK_UN = (0, ⟨LOCK_UN, w lk.st⟩) := by
  unfold fs_lockable_lock
  rw [h, if_neg (by decide), if_neg (by decide), if_pos (by decide)]

theorem fs_list_add_r_content (l : FsList) (r : Row) :
    ((fs_list_add_r l r).1).rows ++ ((fs_list_add_r l r).1).buffer
      = l.rows ++ l.buffer ++ [r] := by
  unfold fs_list_add_r
  by_cases h : l.buffer.length = LIST_BUFFER_SIZE
  · simp [h, fs_list_flush]
  · simp [h]

theorem fs_list_addAll_content (rs : List Row) :
    ∀ l : FsList, (fs_list_addAll l rs).rows ++ (fs_list_addAll l rs).buffer
      = l.rows ++ l.buffer ++ rs := by
  induction rs with
  | nil => intro l; simp [fs_list_addAll]
  | cons r rs ih =>
    intro l
    have step : fs_list_addAll l (r :: rs) = fs_list_addAll (fs_list_add_r l r).1 rs := by
      simp [fs_list_addAll]
    rw [step, ih, fs_list_add_r_content]
    simp

theorem fs_list_readAux_spec :
    ∀ (n : Nat) (l : FsList), l.pos + n = l.rows.length →
      fs_list_readAux n l = (l.rows.drop l.pos, { l with pos := l.rows.length }) := by
  intro n
  induction n with
  | zero =>
    intro l h
    rcases l with ⟨w, rows, buf, pos, s, m⟩
    simp only at h
    have hp : pos = rows.length := by omega
    subst hp
    simp [fs_list_readAux, List.drop_length]
  | succ n ih =>
    intro l h
    rcases l with ⟨w, rows, buf, pos, s, m⟩
    simp only at h
    have hlt : pos < rows.length := by omega
    have hnext : fs_list_next_value_r ⟨w, rows, buf, pos, s, m⟩
        = (some (rows.get ⟨pos, hlt⟩), ⟨w, rows, buf, pos + 1, s, m⟩) := by
      unfold fs_list_next_value_r
      rw [dif_pos hlt]
    unfold fs_list_readAux
    rw [hnext]
    have hih := ih ⟨w, rows, buf, pos + 1, s, m⟩ (by simp only; omega)
    dsimp only at hih ⊢
    rw [hih]
    dsimp only
    rw [List.drop_eq_getElem_cons hlt]
    simp [List.get_eq_getElem]

/-- C4: appending `N` records with `fs_list_add_r` under an exclusive lock
to an empty list, releasing the lock (which flushes the append buffer
through the `write_metadata` hook), re-acquiring a shared lock and
streaming from position 0 with `fs_list_next_value_r` yields exactly those
`N` records in insertion order and then returns 0, and `fs_list_length_r`
equals `N`. -/
theorem list_append_roundtrip (rs : List Row) (lk0 : Lockable FsList)
    (hlock : lk0.locktype = LOCK_UN) (hrows : lk0.st.rows = [])
    (hbuf : lk0.st.buffer = []) :
    (listSession lk0 rs).1 = 0 ∧ (listSession lk0 rs).2.1 = 0 ∧
    (listSession lk0 rs).2.2.1 = 0 ∧
    fs_list_length_r (listSession lk0 rs).2.2.2 = rs.length ∧
    fs_list_readAllS (listSession lk0 rs).2.2.2
      = (rs, { (listSession lk0 rs).2.2.2 with pos := rs.length }) ∧
    (fs_list_next_value_r { (listSession lk0 rs).2.2.2 with pos := rs.length }).1
      = none := by
  have e1 := lock_acquire_from_un fs_list_flush lk0 hlock LOCK_EX (Or.inr rfl)
  have e3 := lock_release_ex fs_list_flush
    ⟨LOCK_EX, fs_list_addAll lk0.st rs⟩ rfl
  have e4 := lock_acquire_from_un fs_list_flush
    ⟨LOCK_UN, fs_list_flush (fs_list_addAll lk0.st rs)⟩ rfl LOCK_SH (Or.inl rfl)
  have hsession : listSession lk0 rs
      = (0, 0, 0, fs_list_rewind_r (fs_list_flush (fs_list_addAll lk0.st rs))) := by
    unfold listSession
    rw [e1]
    simp only
    rw [e3]
    simp only
    rw [e4]
  have hc := fs_list_addAll_content rs lk0.st
  rw [hrows, hbuf] at hc
  simp only [List.nil_append] at hc
  have hF : fs_list_flush (fs_list_addAll lk0.st rs)
      = { fs_list_addAll lk0.st rs with
          rows := rs
          buffer := []
          pos := rs.length } := by
    unfold fs_list_flush
    have hlen : (fs_list_addAll lk0.st rs).rows.length
        + (fs_list_addAll lk0.st rs).buffer.length = rs.length := by
      have := congrArg List.length hc
      simpa using this
    rw [hc, hlen]
  simp only [hsession]
  rw [hF]
  dsimp only [fs_list_rewind_r]
  refine ⟨trivial, trivial, trivial, ?_, ?_, ?_⟩
  · simp [fs_list_length_r]
  · unfold fs_list_readAllS
    have hspec := fs_list_readAux_spec rs.length
      { fs_list_addAll lk0.st rs with rows := rs, buffer := [], pos := 0 }
      (by simp)
    dsimp only at hspec ⊢
    simpa using hspec
  · unfold fs_list_next_value_r
    rw [dif_neg (by simp)]

/-- Witness for C4: two one-byte records appended to a fresh list. -/
theorem list_append_roundtrip_witness :
    (Lockable.mk LOCK_UN (FsList.mk 1 [] [] 0 .unsorted none)).locktype = LOCK_UN ∧
    (FsList.mk 1 [] [] 0 .unsorted none).rows = [] ∧
    (FsList.mk 1 [] [] 0 .unsorted none).buffer = [] ∧
    ((listSession ⟨LOCK_UN, ⟨1, [], [], 0, .unsorted, none⟩⟩ [[1], [2]]).1 = 0 ∧
     (listSession ⟨LOCK_UN, ⟨1, [], [], 0, .unsorted, none⟩⟩ [[1], [2]]).2.1 = 0 ∧
     (listSession ⟨LOCK_UN, ⟨1, [], [], 0, .unsorted, none⟩⟩ [[1], [2]]).2.2.1 = 0 ∧
     fs_list_length_r (listSession ⟨LOCK_UN, ⟨1, [], [], 0, .unsorted, none⟩⟩ [[1], [2]]).2.2.2 = 2 ∧
     fs_list_readAllS (listSession ⟨LOCK_UN, ⟨1, [], [], 0, .unsorted, none⟩⟩ [[1], [2]]).2.2.2
       = ([[1], [2]],
          { (listSession ⟨LOCK_UN, ⟨1, [], [], 0, .unsorted, none⟩⟩ [[1], [2]]).2.2.2 with pos := 2 }) ∧
     (fs_list_next_value_r
        { (listSession ⟨LOCK_UN, ⟨1, [], [], 0, .unsorted, none⟩⟩ [[1], [2]]).2.2.2 with pos := 2 }).1
       = none) :=
  ⟨rfl, rfl, rfl,
   list_append_roundtrip [[1], [2]] ⟨LOCK_UN, ⟨1, [], [], 0, .unsorted, none⟩⟩ rfl rfl rfl⟩

/-! ## Claim C3 (sort-uniq) -/

/-! ## Claim C2 (growth preserves contents): helper lemmas -/

theorem getD_append_left {α : Type} (l1 l2 : List α) (n : Nat) (d : α)
    (h : n < l1.length) : (l1 ++ l2).getD n d = l1.getD n d := by
  simp [List.getD_eq_getElem?_getD, List.getElem?_append_left h]

theorem getD_append_right {α : Type} (l1 l2 : List α) (n : Nat) (d : α)
    (h : l1.length ≤ n) : (l1 ++ l2).getD n d = l2.getD (n - l1.length) d := by
  simp [List.getD_eq_getElem?_getD, List.getElem?_append_right h]

theorem getD_len_le {α : Type} (l : List α) (n : Nat) (d : α)
    (h : l.length ≤ n) : l.getD n d = d := by
  simp [List.getD_eq_getElem?_getD, List.getElem?_eq_none h]

theorem getD_map_lt {α β : Type} (f : α → β) (l : List α) (n : Nat) (d : β) (d' : α)
    (h : n < l.length) : (l.map f).getD n d = f (l.getD n d') := by
  simp [List.getD_eq_getElem?_getD, List.getElem?_map, List.getElem?_eq_getElem h,
    List.getElem?_eq_getElem (l := l) h]

theorem mscan_some (ents : List MEntry) (rid : Nat) :
    ∀ (len start : Nat) (e : MEntry), mscan ents rid start len = some e →
      ∃ i, i < len ∧ (ents.getD (start+i) blankM).rid = rid ∧
        e = ents.getD (start+i) blankM ∧
        ∀ i' < i, (ents.getD (start+i') blankM).rid ≠ rid := by
  intro len
  induction len with
  | zero => intro start e h; simp [mscan] at h
  | succ len ih =>
    intro start e h
    unfold mscan at h
    dsimp only at h
    by_cases hm : (ents.getD start blankM).rid = rid
    · rw [if_pos hm] at h
      injection h with h
      exact ⟨0, by omega, by simpa using hm,
        by rw [Nat.add_zero]; exact h.symm, by intro i' hi'; omega⟩
    · rw [if_neg hm] at h
      obtain ⟨i, hi, hmda, he, hbef⟩ := ih (start+1) e h
      refine ⟨i+1, by omega, ?_, ?_, ?_⟩
      · rw [show start + (i+1) = (start+1) + i by omega]; exact hmda
      · rw [show start + (i+1) = (start+1) + i by omega]; exact he
      · intro i' hi'
        cases i' with
        | zero => simpa using hm
        | succ i'' =>
          rw [show start + (i''+1) = (start+1) + i'' by omega]
          exact hbef i'' (by omega)

theorem mscan_intro (ents : List MEntry) (rid : Nat) :
    ∀ (len start i : Nat), i < len → (ents.getD (start+i) blankM).rid = rid →
      (∀ i' < i, (ents.getD (start+i') blankM).rid ≠ rid) →
      mscan ents rid start len = some (ents.getD (start+i) blankM) := by
  intro len
  induction len with
  | zero => intro start i h; omega
  | succ len ih =>
    intro start i hlt hm hbef
    unfold mscan
    dsimp only
    cases i with
    | zero =>
      rw [if_pos (by simpa using hm), Nat.add_zero]
    | succ i' =>
      have h0 : (ents.getD start blankM).rid ≠ rid := by
        have := hbef 0 (by omega); simpa using this
      rw [if_neg h0]
      have hstep := ih (start+1) i' (by omega)
        (by rw [show (start+1)+i' = start+(i'+1) by omega]; exact hm)
        (fun j hj => by
          rw [show (start+1)+j = start+(j+1) by omega]
          exact hbef (j+1) (by omega))
      rw [hstep, show (start+1)+i' = start+(i'+1) by omega]

theorem rhashFindAux_some (ents : List REntry) (rid : Nat) :
    ∀ (j idx : Nat) (e : REntry), rhashFindAux ents rid idx j = some e →
      ∃ i, i < j ∧ (ents.getD (idx+i) blankR).rid = rid ∧
        e = ents.getD (idx+i) blankR ∧
        ∀ i' < i, (ents.getD (idx+i') blankR).rid ≠ rid := by
  intro j
  induction j with
  | zero => intro idx e h; simp [rhashFindAux] at h
  | succ j ih =>
    intro idx e h
    unfold rhashFindAux at h
    dsimp only at h
    by_cases hm : (ents.getD idx blankR).rid = rid
    · rw [if_pos hm] at h
      injection h with h
      exact ⟨0, by omega, by simpa using hm,
        by rw [Nat.add_zero]; exact h.symm, by intro i' hi'; omega⟩
    · rw [if_neg hm] at h
      obtain ⟨i, hi, hmda, he, hbef⟩ := ih (idx+1) e h
      refine ⟨i+1, by omega, ?_, ?_, ?_⟩
      · rw [show idx + (i+1) = (idx+1) + i by omega]; exact hmda
      · rw [show idx + (i+1) = (idx+1) + i by omega]; exact he
      · intro i' hi'
        cases i' with
        | zero => simpa using hm
        | succ i'' =>
          rw [show idx + (i''+1) = (idx+1) + i'' by omega]
          exact hbef i'' (by omega)

theorem rhashFindAux_intro (ents : List REntry) (rid : Nat) :
    ∀ (j idx i : Nat), i < j → (ents.getD (idx+i) blankR).rid = rid →
      (∀ i' < i, (ents.getD (idx+i') blankR).rid ≠ rid) →
      rhashFindAux ents rid idx j = some (ents.getD (idx+i) blankR) := by
  intro j
  induction j with
  | zero => intro idx i h; omega
  | succ j ih =>
    intro idx i hlt hm hbef
    unfold rhashFindAux
    dsimp only
    cases i with
    | zero =>
      rw [if_pos (by simpa using hm), Nat.add_zero]
    | succ i' =>
      have h0 : (ents.getD idx blankR).rid ≠ rid := by
        have := hbef 0 (by omega); simpa using this
      rw [if_neg h0]
      have hstep := ih (idx+1) i' (by omega)
        (by rw [show (idx+1)+i' = idx+(i'+1) by omega]; exact hm)
        (fun j' hj => by
          rw [show (idx+1)+j' = idx+(j'+1) by omega]
          exact hbef (j'+1) (by omega))
      rw [hstep, show (idx+1)+i' = idx+(i'+1) by omega]

theorem mhashFindAux_eq_mscan (ents : List MEntry) (k rid : Nat) :
    ∀ (j entry : Nat), entry < 2^k →
      mhashFindAux ents (2^k) rid entry j
        = mscan ents rid entry (min j (2^k - entry)) := by
  intro j
  induction j with
  | zero => intro entry _; simp [mhashFindAux, mscan]
  | succ j ih =>
    intro entry hent
    have hmin : min (j+1) (2^k - entry) = min j (2^k - (entry+1)) + 1 := by omega
    unfold mhashFindAux
    rw [hmin]
    unfold mscan
    dsimp only
    by_cases hm : (ents.getD entry blankM).rid = rid
    · rw [if_pos hm, if_pos hm]
    · rw [if_neg hm, if_neg hm]
      rw [Nat.and_pow_two_sub_one_eq_mod]
      by_cases hend : entry + 1 = 2^k
      · rw [show (entry+1) % 2^k = 0 by rw [hend]; exact Nat.mod_self _]
        rw [if_pos rfl]
        rw [show min j (2^k - (entry+1)) = 0 by omega]
        simp [mscan]
      · have hlt : entry + 1 < 2^k := by omega
        rw [Nat.mod_eq_of_lt hlt, if_neg (by omega)]
        exact ih (entry+1) hlt

theorem mhash_double_find_pres (mh : FsMhash) (k rid : Nat) (e : MEntry)
    (hsz : mh.size = 2^k) (hlen : mh.entries.length = mh.size) (hr : rid ≠ 0)
    (h : mhashFind mh rid = some e) :
    mhashFind (fs_mhash_double_size mh).1 rid = some e := by
  have hpow : (0:Nat) < 2^k := Nat.two_pow_pos k
  have hlen2 : mh.entries.length = 2^k := by omega
  set x := rid >>> 10 with hx
  have hhlt : x % 2^k < 2^k := Nat.mod_lt _ hpow
  -- the "find" before the doubling, as a linear scan
  unfold mhashFind at h
  unfold FS_MHASH_ENTRY at h
  rw [hsz, Nat.and_pow_two_sub_one_eq_mod,
    mhashFindAux_eq_mscan mh.entries k rid mh.searchDist (x % 2^k) hhlt] at h
  obtain ⟨i, hi, hmda, he, hbef⟩ := mscan_some mh.entries rid _ _ e h
  have hilt : i < mh.searchDist := by omega
  have hilt2 : x % 2^k + i < 2^k := by omega
  -- the doubled table
  have hpow1 : (2:Nat) * 2^k = 2^(k+1) := by ring
  have hDent : (fs_mhash_double_size mh).1.entries
      = mh.entries.map (fun e0 =>
          if e0.rid ≠ 0 ∧ 2^k ≤ (e0.rid >>> 10) % 2^(k+1) then blankM else e0)
        ++ mh.entries.map (fun e0 =>
          if e0.rid ≠ 0 ∧ 2^k ≤ (e0.rid >>> 10) % 2^(k+1) then e0 else blankM) := by
    show mh.entries.map _ ++ mh.entries.map _ = _
    rw [hsz, hpow1]
    simp only [Nat.and_pow_two_sub_one_eq_mod]
  have hmod : x % 2^(k+1) = x % 2^k + 2^k * (x / 2^k % 2) := by
    rw [show (2:Nat)^(k+1) = 2^k * 2 by ring]
    exact Nat.mod_mul
  -- the "find" after the doubling, as a linear scan
  unfold mhashFind FS_MHASH_ENTRY
  have hDsz : (fs_mhash_double_size mh).1.size = 2 * mh.size := rfl
  have hDsd : (fs_mhash_double_size mh).1.searchDist = 2 * mh.searchDist + 1 := rfl
  rw [hDsz, hDsd, hsz, hpow1, Nat.and_pow_two_sub_one_eq_mod]
  have hhlt' : x % 2^(k+1) < 2^(k+1) := Nat.mod_lt _ (Nat.two_pow_pos _)
  rw [mhashFindAux_eq_mscan _ (k+1) rid _ _ hhlt']
  have hp2 : (2:Nat)^(k+1) = 2 * 2^k := by ring
  -- access to the doubled entry array
  have hlowD : ∀ q, q < 2^k → (fs_mhash_double_size mh).1.entries.getD q blankM
      = (if (mh.entries.getD q blankM).rid ≠ 0 ∧
            2^k ≤ ((mh.entries.getD q blankM).rid >>> 10) % 2^(k+1)
         then blankM else mh.entries.getD q blankM) := by
    intro q hq
    rw [hDent, getD_append_left _ _ _ _ (by simpa [hlen2] using hq),
      getD_map_lt _ _ _ _ blankM (by omega)]
  have huppD : ∀ q, 2^k ≤ q → q - 2^k < 2^k →
      (fs_mhash_double_size mh).1.entries.getD q blankM
      = (if (mh.entries.getD (q - 2^k) blankM).rid ≠ 0 ∧
            2^k ≤ ((mh.entries.getD (q - 2^k) blankM).rid >>> 10) % 2^(k+1)
         then mh.entries.getD (q - 2^k) blankM else blankM) := by
    intro q hq1 hq2
    rw [hDent, getD_append_right _ _ _ _ (by simpa [hlen2] using hq1),
      getD_map_lt _ _ _ _ blankM (by simpa [hlen2] using hq2)]
    rw [List.length_map, hlen2]
  rcases Nat.mod_two_eq_zero_or_one (x / 2^k) with hb | hb
  · -- the new home bit is 0: everything relevant stays in the lower half
    have hhome' : x % 2^(k+1) = x % 2^k := by rw [hmod, hb]; ring
    rw [hhome']
    have hmatch : ((fs_mhash_double_size mh).1.entries.getD (x % 2^k + i) blankM) = e := by
      rw [hlowD _ hilt2, if_neg]
      · exact he.symm
      · rw [hmda, ← hx, hhome']
        omega
    rw [mscan_intro (fs_mhash_double_size mh).1.entries rid _ (x % 2^k) i
      (by omega) (by rw [hmatch, he]; exact hmda) ?_, hmatch]
    intro i' hi'
    have hq : x % 2^k + i' < 2^k := by omega
    rw [hlowD _ hq]
    by_cases hmov : (mh.entries.getD (x % 2^k + i') blankM).rid ≠ 0 ∧
        2^k ≤ ((mh.entries.getD (x % 2^k + i') blankM).rid >>> 10) % 2^(k+1)
    · rw [if_pos hmov]
      exact fun hz => hr hz.symm
    · rw [if_neg hmov]
      exact hbef i' hi'
  · -- the new home bit is 1: the matching entries all moved to the upper half
    have hhome' : x % 2^(k+1) = x % 2^k + 2^k := by rw [hmod, hb]; ring
    rw [hhome']
    have hmatch : ((fs_mhash_double_size mh).1.entries.getD (x % 2^k + 2^k + i) blankM) = e := by
      rw [show x % 2^k + 2^k + i = (x % 2^k + i) + 2^k by omega]
      rw [huppD _ (by omega) (by omega)]
      rw [show x % 2^k + i + 2^k - 2^k = x % 2^k + i by omega]
      rw [if_pos ⟨by rw [hmda]; exact hr, by rw [hmda, ← hx, hhome']; omega⟩]
      exact he.symm
    rw [mscan_intro (fs_mhash_double_size mh).1.entries rid _ (x % 2^k + 2^k) i
      (by omega) (by rw [hmatch, he]; exact hmda) ?_, hmatch]
    intro i' hi'
    rw [show x % 2^k + 2^k + i' = (x % 2^k + i') + 2^k by omega]
    rw [huppD _ (by omega) (by omega)]
    rw [show x % 2^k + i' + 2^k - 2^k = x % 2^k + i' by omega]
    by_cases hmov : (mh.entries.getD (x % 2^k + i') blankM).rid ≠ 0 ∧
        2^k ≤ ((mh.entries.getD (x % 2^k + i') blankM).rid >>> 10) % 2^(k+1)
    · rw [if_pos hmov]
      exact hbef i' hi'
    · rw [if_neg hmov]
      exact fun hz => hr hz.symm

theorem rhash_double_find_pres (rh : FsRhash) (k rid : Nat) (e : REntry)
    (hsz : rh.size = 2^k) (hbs : 0 < rh.bucketSize)
    (hlen : rh.entries.length = rh.size * rh.bucketSize) (hr : rid ≠ 0)
    (h : rhashFind rh rid = some e) :
    rhashFind (fs_rhash_double_size rh).1 rid = some e := by
  have hpow : (0:Nat) < 2^k := Nat.two_pow_pos k
  set bs := rh.bucketSize with hbsd
  have hN : rh.entries.length = 2^k * bs := by rw [hlen, hsz]
  set x := rid >>> 10 with hx
  have hhlt : x % 2^k < 2^k := Nat.mod_lt _ hpow
  -- the "find" before the doubling
  unfold rhashFind FS_RHASH_ENTRY at h
  rw [hsz, Nat.and_pow_two_sub_one_eq_mod, ← hx, ← hbsd] at h
  obtain ⟨i, hi, hmda, he, hbef⟩ := rhashFindAux_some rh.entries rid _ _ e h
  -- the match position is inside the array (a blank never matches rid ≠ 0)
  have hpN : x % 2^k * bs + i < 2^k * bs := by
    by_contra hcon
    rw [getD_len_le rh.entries _ blankR (by omega)] at hmda
    exact hr hmda.symm
  have hlt2 : (x % 2^k) * bs < 2^k * bs := mul_lt_mul_of_pos_right hhlt hbs
  have hpow1 : (2:Nat) * 2^k = 2^(k+1) := by ring
  have hmod : x % 2^(k+1) = x % 2^k + 2^k * (x / 2^k % 2) := by
    rw [show (2:Nat)^(k+1) = 2^k * 2 by ring]
    exact Nat.mod_mul
  -- the doubled entry array
  have hDent : (fs_rhash_double_size rh).1.entries
      = rh.entries.map (fun e0 =>
          if e0.rid ≠ 0 ∧ 2^k * bs ≤ ((e0.rid >>> 10) % 2^(k+1)) * bs
          then blankR else e0)
        ++ rh.entries.map (fun e0 =>
          if e0.rid ≠ 0 ∧ 2^k * bs ≤ ((e0.rid >>> 10) % 2^(k+1)) * bs
          then e0 else blankR) := by
    show rh.entries.map _ ++ rh.entries.map _ = _
    simp only [FS_RHASH_ENTRY]
    rw [hsz, hpow1]
    simp only [Nat.and_pow_two_sub_one_eq_mod]
  have hlowD : ∀ q, q < 2^k * bs → (fs_rhash_double_size rh).1.entries.getD q blankR
      = (if (rh.entries.getD q blankR).rid ≠ 0 ∧
            2^k * bs ≤ (((rh.entries.getD q blankR).rid >>> 10) % 2^(k+1)) * bs
         then blankR else rh.entries.getD q blankR) := by
    intro q hq
    rw [hDent, getD_append_left _ _ _ _ (by simpa [hN] using hq),
      getD_map_lt _ _ _ _ blankR (by omega)]
  have huppD : ∀ q, 2^k * bs ≤ q → q - 2^k * bs < 2^k * bs →
      (fs_rhash_double_size rh).1.entries.getD q blankR
      = (if (rh.entries.getD (q - 2^k * bs) blankR).rid ≠ 0 ∧
            2^k * bs ≤ (((rh.entries.getD (q - 2^k * bs) blankR).rid >>> 10) % 2^(k+1)) * bs
         then rh.entries.getD (q - 2^k * bs) blankR else blankR) := by
    intro q hq1 hq2
    rw [hDent, getD_append_right _ _ _ _ (by simpa [hN] using hq1),
      List.length_map, hN, getD_map_lt _ _ _ _ blankR (by omega)]
  -- the "find" after the doubling
  unfold rhashFind FS_RHASH_ENTRY
  have hDsz : (fs_rhash_double_size rh).1.size = 2 * rh.size := rfl
  have hDsd : (fs_rhash_double_size rh).1.searchDist = rh.searchDist := rfl
  have hDbs : (fs_rhash_double_size rh).1.bucketSize = bs := rfl
  rw [hDsz, hDsd, hDbs, hsz, hpow1, Nat.and_pow_two_sub_one_eq_mod]
  rcases Nat.mod_two_eq_zero_or_one (x / 2^k) with hb | hb
  · -- home bit 0: the relevant entries stay in the lower half
    have hhome' : x % 2^(k+1) = x % 2^k := by rw [hmod, hb]; ring
    rw [← hx, hhome']
    have hmatch : (fs_rhash_double_size rh).1.entries.getD (x % 2^k * bs + i) blankR = e := by
      rw [hlowD _ hpN, hmda, ← hx, hhome']
      rw [if_neg (by omega)]
      exact he.symm
    rw [rhashFindAux_intro (fs_rhash_double_size rh).1.entries rid rh.searchDist
      (x % 2^k * bs) i hi (by rw [hmatch, he]; exact hmda) ?_, hmatch]
    intro i' hi'
    have hq : x % 2^k * bs + i' < 2^k * bs := by omega
    rw [hlowD _ hq]
    by_cases hmov : (rh.entries.getD (x % 2^k * bs + i') blankR).rid ≠ 0 ∧
        2^k * bs ≤ (((rh.entries.getD (x % 2^k * bs + i') blankR).rid >>> 10) % 2^(k+1)) * bs
    · rw [if_pos hmov]
      exact fun hz => hr hz.symm
    · rw [if_neg hmov]
      exact hbef i' hi'
  · -- home bit 1: the relevant entries all moved to the mirror bucket
    have hhome' : x % 2^(k+1) = x % 2^k + 2^k := by rw [hmod, hb]; ring
    rw [← hx, hhome', Nat.add_mul]
    have hble : 2^k * bs ≤ (x % 2^k + 2^k) * bs :=
      Nat.mul_le_mul_right bs (by omega)
    have hmatch : (fs_rhash_double_size rh).1.entries.getD
        (x % 2^k * bs + 2^k * bs + i) blankR = e := by
      rw [show x % 2^k * bs + 2^k * bs + i = (x % 2^k * bs + i) + 2^k * bs by omega]
      rw [huppD _ (by omega) (by omega)]
      rw [show x % 2^k * bs + i + 2^k * bs - 2^k * bs = x % 2^k * bs + i by omega]
      rw [hmda, ← hx, hhome']
      rw [if_pos ⟨hr, hble⟩]
      exact he.symm
    rw [rhashFindAux_intro (fs_rhash_double_size rh).1.entries rid rh.searchDist
      (x % 2^k * bs + 2^k * bs) i hi (by rw [hmatch, he]; exact hmda) ?_, hmatch]
    intro i' hi'
    rw [show x % 2^k * bs + 2^k * bs + i' = (x % 2^k * bs + i') + 2^k * bs by omega]
    rw [huppD _ (by omega) (by omega)]
    rw [show x % 2^k * bs + i' + 2^k * bs - 2^k * bs = x % 2^k * bs + i' by omega]
    by_cases hmov : (rh.entries.getD (x % 2^k * bs + i') blankR).rid ≠ 0 ∧
        2^k * bs ≤ (((rh.entries.getD (x % 2^k * bs + i') blankR).rid >>> 10) % 2^(k+1)) * bs
    · rw [if_pos hmov]
      exact hbef i' hi'
    · rw [if_neg hmov]
      exact fun hz => hr hz.symm

/-- C2: table doubling preserves contents.  For ModelHash: any rid that
`fs_mhash_get_r`'s probe finds before `double_size` is found afterwards
with the identical entry, and the returned value is unchanged.  For
ResourceHash: any rid that `fs_rhash_get_r`'s probe finds before
`double_size` is found afterwards with the identical 32-byte entry, and
the decoded `(attr, lex)` resource is unchanged (the doubling touches
neither the lex file nor the prefix dictionary). -/
theorem growth_preserves_contents :
    (∀ (mh : FsMhash) (k rid : Nat) (e : MEntry),
        mh.size = 2^k → mh.entries.length = mh.size → rid ≠ 0 →
        mhashFind mh rid = some e →
        mhashFind (fs_mhash_double_size mh).1 rid = some e ∧
        fs_mhash_get_r (fs_mhash_double_size mh).1 rid = fs_mhash_get_r mh rid) ∧
    (∀ (z : ZCodec) (rh : FsRhash) (k rid : Nat) (e : REntry),
        rh.size = 2^k → 0 < rh.bucketSize →
        rh.entries.length = rh.size * rh.bucketSize → rid ≠ 0 →
        rhashFind rh rid = some e →
        rhashFind (fs_rhash_double_size rh).1 rid = some e ∧
        fs_rhash_get_r z (fs_rhash_double_size rh).1 rid = fs_rhash_get_r z rh rid) := by
  constructor
  · intro mh k rid e hsz hlen hr h
    have hp := mhash_double_find_pres mh k rid e hsz hlen hr h
    refine ⟨hp, ?_⟩
    unfold fs_mhash_get_r
    rw [hp, h]
  · intro z rh k rid e hsz hbs hlen hr h
    have hp := rhash_double_find_pres rh k rid e hsz hbs hlen hr h
    refine ⟨hp, ?_⟩
    unfold fs_rhash_get_r
    rw [hp, h]
    rfl

/-- Witness for C2: a two-slot ModelHash and a one-bucket ResourceHash,
each holding rid 1024, before and after doubling. -/
theorem growth_preserves_contents_witness :
    ((FsMhash.mk 2 1 2 [⟨0, 0⟩, ⟨1024, 7⟩]).size = 2^1 ∧
     (FsMhash.mk 2 1 2 [⟨0, 0⟩, ⟨1024, 7⟩]).entries.length
       = (FsMhash.mk 2 1 2 [⟨0, 0⟩, ⟨1024, 7⟩]).size ∧
     (1024 : Nat) ≠ 0 ∧
     mhashFind ⟨2, 1, 2, [⟨0, 0⟩, ⟨1024, 7⟩]⟩ 1024 = some ⟨1024, 7⟩) ∧
    (mhashFind (fs_mhash_double_size ⟨2, 1, 2, [⟨0, 0⟩, ⟨1024, 7⟩]⟩).1 1024
       = some ⟨1024, 7⟩ ∧
     fs_mhash_get_r (fs_mhash_double_size ⟨2, 1, 2, [⟨0, 0⟩, ⟨1024, 7⟩]⟩).1 1024
       = fs_mhash_get_r ⟨2, 1, 2, [⟨0, 0⟩, ⟨1024, 7⟩]⟩ 1024) ∧
    (rhashFind (fs_rhash_double_size
        ⟨1, 2, 2, 1, [⟨1024, 5, .bytes (List.replicate 15 0), 'i'⟩, blankR], [], [], true⟩).1 1024
       = some ⟨1024, 5, .bytes (List.replicate 15 0), 'i'⟩ ∧
     fs_rhash_get_r ⟨fun _ => none, fun _ _ => none⟩ (fs_rhash_double_size
        ⟨1, 2, 2, 1, [⟨1024, 5, .bytes (List.replicate 15 0), 'i'⟩, blankR], [], [], true⟩).1 1024
       = fs_rhash_get_r ⟨fun _ => none, fun _ _ => none⟩
          ⟨1, 2, 2, 1, [⟨1024, 5, .bytes (List.replicate 15 0), 'i'⟩, blankR], [], [], true⟩ 1024) :=
  ⟨⟨by decide, by decide, by decide, by decide⟩,
   growth_preserves_contents.1 ⟨2, 1, 2, [⟨0, 0⟩, ⟨1024, 7⟩]⟩ 1 1024 ⟨1024, 7⟩
     (by decide) (by decide) (by decide) (by decide),
   growth_preserves_contents.2 ⟨fun _ => none, fun _ _ => none⟩
     ⟨1, 2, 2, 1, [⟨1024, 5, .bytes (List.replicate 15 0), 'i'⟩, blankR], [], [], true⟩
     0 1024 ⟨1024, 5, .bytes (List.replicate 15 0), 'i'⟩
     (by decide) (by decide) (by decide) (by decide) (by decide)⟩

/-- C3: evaluation of the code at the failing input.  The input list holds
the single all-zero one-byte row; `cmpBytes` is a genuine total order
under which byte-equal rows compare equal.  After `fs_list_sort_chunked_r`
the row is still there, yet the first `fs_list_next_sort_uniqed_r` call
returns 0 and emits nothing: the all-zero row is skipped as a "duplicate"
of the `calloc`-zeroed `last` buffer (`list.c:290,328`), so the emitted
multiset is empty instead of the deduplicated input set. -/
theorem sort_uniq_drops_all_zero_row :
    (fs_list_sort_chunked_r cmpBytes ⟨1, [[0]], [], 0, .unsorted, none⟩).rows
      = [[0]] ∧
    (fs_list_next_sort_uniqed_r cmpBytes
        (fs_list_sort_chunked_r cmpBytes ⟨1, [[0]], [], 0, .unsorted, none⟩)).2.1
      = none := by decide

/-! ## Claim C1 (ResourceHash round-trip): byte and list helper lemmas -/

theorem takeWhile_replicate_zero (m : Nat) :
    (List.replicate m 0).takeWhile (fun c : Nat => c ≠ 0) = ([] : List Nat) := by
  cases m with
  | zero => rfl
  | succ m => simp [List.replicate_succ, List.takeWhile_cons]

theorem takeWhile_pad (l : List Nat) (n : Nat) (h : ∀ c ∈ l, c ≠ 0) :
    (padTo n l).takeWhile (fun c : Nat => c ≠ 0) = l := by
  unfold padTo
  induction l generalizing n with
  | nil =>
    simp only [List.nil_append, List.length_nil, Nat.sub_zero]
    exact takeWhile_replicate_zero n
  | cons a as ih =>
    have ha : a ≠ 0 := h a (by simp)
    simp only [List.cons_append, List.takeWhile_cons]
    rw [if_pos (by simpa using ha)]
    have := ih (n - 1) (fun c hc => h c (by simp [hc]))
    rw [show n - (a :: as).length = (n - 1) - as.length by simp; omega]
    rw [this]

theorem getD_set_self {α : Type} (l : List α) (n : Nat) (a d : α)
    (h : n < l.length) : (l.set n a).getD n d = a := by
  simp [List.getD_eq_getElem?_getD, List.getElem?_set_self, h]

theorem getD_set_ne {α : Type} (l : List α) (n m : Nat) (a d : α)
    (h : n ≠ m) : (l.set n a).getD m d = l.getD m d := by
  simp [List.getD_eq_getElem?_getD, List.getElem?_set_ne h]

theorem getD_range_map {β : Type} (f : Nat → β) (n j : Nat) (d : β) (h : j < n) :
    ((List.range n).map f).getD j d = f j := by
  rw [List.getD_eq_getElem?_getD, List.getElem?_map, List.getElem?_range h]
  rfl

theorem lexRead_exact (A B C : List Nat) :
    lexRead (A ++ (B ++ C)) A.length B.length = some B := by
  unfold lexRead
  rw [if_pos (by simp)]
  rw [List.drop_left, List.take_left]

theorem decode_le32 (n : Nat) (h : n < 4294967296) :
    (le32 n).getD 0 0 + 256 * (le32 n).getD 1 0 + 65536 * (le32 n).getD 2 0
      + 16777216 * (le32 n).getD 3 0 = n := by
  unfold le32
  simp only [List.getD_cons_zero, List.getD_cons_succ]
  omega

theorem readLE32_exact (A : List Nat) (n : Nat) (C : List Nat)
    (h : n < 4294967296) :
    readLE32 (A ++ (le32 n ++ C)) A.length = some n := by
  unfold readLE32
  rw [show (4:Nat) = (le32 n).length from rfl, lexRead_exact A (le32 n) C]
  show some ((le32 n).getD 0 0 + 256 * (le32 n).getD 1 0 + 65536 * (le32 n).getD 2 0
    + 16777216 * (le32 n).getD 3 0) = some n
  rw [decode_le32 n h]

theorem lexRead_mono (f app : List Nat) (off n : Nat) (bs : List Nat)
    (h : lexRead f off n = some bs) : lexRead (f ++ app) off n = some bs := by
  unfold lexRead at h ⊢
  by_cases hb : off + n ≤ f.length
  · rw [if_pos hb] at h
    rw [if_pos (by simp; omega)]
    rw [← h]
    rw [List.drop_append_of_le_length (by omega)]
    rw [List.take_append_of_le_length (by simp [List.length_drop]; omega)]
  · rw [if_neg hb] at h
    cases h

theorem readLE32_mono (f app : List Nat) (off v : Nat)
    (h : readLE32 f off = some v) : readLE32 (f ++ app) off = some v := by
  unfold readLE32 at h ⊢
  cases hr : lexRead f off 4 with
  | none => rw [hr] at h; cases h
  | some bs =>
    rw [hr] at h
    rw [lexRead_mono f app off 4 bs hr]
    exact h

theorem packBytesLE_lt (bs : List Nat) (h : ∀ c ∈ bs, c < 256) :
    packBytesLE bs < 256 ^ bs.length := by
  induction bs with
  | nil => simp [packBytesLE]
  | cons b rest ih =>
    have hb : b < 256 := h b (by simp)
    have hr := ih (fun c hc => h c (by simp [hc]))
    unfold packBytesLE at hr ⊢
    simp only [List.foldr_cons, List.length_cons]
    have h3 : (256:Nat)^(rest.length+1) = 256 * 256^rest.length := by ring
    omega

theorem avalByte_packBytesLE (bs : List Nat) (h : ∀ c ∈ bs, c < 256) :
    ∀ i, avalByte (packBytesLE bs) i = bs.getD i 0 := by
  induction bs with
  | nil =>
    intro i
    unfold packBytesLE avalByte
    simp
  | cons b rest ih =>
    intro i
    have hb : b < 256 := h b (by simp)
    cases i with
    | zero =>
      unfold avalByte packBytesLE
      simp only [List.foldr_cons, Nat.mul_zero, Nat.shiftRight_zero]
      rw [show (255:Nat) = 2^8 - 1 by norm_num, Nat.and_pow_two_sub_one_eq_mod]
      show (b + 256 * packBytesLE rest) % 2^8 = (b :: rest).getD 0 0
      simp only [List.getD_cons_zero]
      omega
    | succ i =>
      have hstep : packBytesLE (b :: rest) >>> (8 * (i+1))
          = packBytesLE rest >>> (8 * i) := by
        rw [show 8 * (i+1) = 8 + 8*i by ring, Nat.shiftRight_add]
        congr 1
        show (b + 256 * packBytesLE rest) >>> 8 = packBytesLE rest
        rw [Nat.shiftRight_eq_div_pow, show (2:Nat)^8 = 256 by norm_num]
        omega
      unfold avalByte
      rw [hstep]
      have := ih (fun c hc => h c (by simp [hc])) i
      unfold avalByte at this
      rw [this]
      simp [List.getD_cons_succ]

theorem getD_lt_of_forall (bs : List Nat) (B : Nat) (hB : 0 < B)
    (h : ∀ c ∈ bs, c < B) : ∀ j, bs.getD j 0 < B := by
  intro j
  by_cases hj : j < bs.length
  · rw [List.getD_eq_getElem?_getD, List.getElem?_eq_getElem hj]
    exact h _ (List.getElem_mem hj)
  · rw [getD_len_le _ _ _ (by omega)]
    exact hB

theorem padTo_length (l : List Nat) (n : Nat) (h : l.length ≤ n) :
    (padTo n l).length = n := by
  simp [padTo]
  omega

theorem padTo_mem_lt (l : List Nat) (n B : Nat) (hB : 0 < B)
    (h : ∀ c ∈ l, c < B) : ∀ c ∈ padTo n l, c < B := by
  intro c hc
  rcases List.mem_append.mp hc with hc | hc
  · exact h c hc
  · rw [List.eq_of_mem_replicate hc]
    exact hB

theorem pstrTail_pack (code : Nat) (bs : List Nat) (h : ∀ c ∈ bs, c < 256)
    (hc : code < 256) (hlen : bs.length = 7) :
    pstrTail (packBytesLE (code :: bs)) = bs := by
  unfold pstrTail
  apply List.ext_getElem
  · simp [hlen]
  · intro i h1 h2
    simp only [List.getElem_map, List.getElem_range]
    rw [avalByte_packBytesLE (code :: bs)
      (by intro c hcm; rcases List.mem_cons.mp hcm with hcm | hcm
          · rw [hcm]; exact hc
          · exact h c hcm) (i+1)]
    rw [List.getD_cons_succ, List.getD_eq_getElem?_getD,
      List.getElem?_eq_getElem h2]
    rfl

theorem avalByte_zero_mod (a : Nat) : avalByte a 0 = a % 256 := by
  unfold avalByte
  rw [Nat.mul_zero, Nat.shiftRight_zero,
    show (255:Nat) = 2^8 - 1 by norm_num, Nat.and_pow_two_sub_one_eq_mod]

/-! ## Claim C1: BCD / BCDate codec lemmas -/

theorem bcdCode_inverse (c m : Nat) (h : bcdCode c = some m) :
    bcd_map.getD m 0 = c ∧ 1 ≤ m ∧ m < 16 := by
  unfold bcdCode at h
  split_ifs at h with h1 h2 h3 h4 h5 h6 <;> injection h with h <;> subst h
  · obtain ⟨ha, hb⟩ := h1
    refine ⟨?_, by omega, by omega⟩
    interval_cases c <;> rfl
  · exact ⟨by rw [h2]; decide, by omega, by omega⟩
  · exact ⟨by rw [h3]; decide, by omega, by omega⟩
  · exact ⟨by rw [h4]; decide, by omega, by omega⟩
  · exact ⟨by rw [h5]; decide, by omega, by omega⟩
  · exact ⟨by rw [h6]; decide, by omega, by omega⟩

theorem bcdateCode_inverse (c m : Nat) (h : bcdateCode c = some m) :
    bcdate_map.getD m 0 = c ∧ 1 ≤ m ∧ m < 16 := by
  unfold bcdateCode at h
  split_ifs at h with h1 h2 h3 h4 h5 h6 h7 <;> injection h with h <;> subst h
  · obtain ⟨ha, hb⟩ := h1
    refine ⟨?_, by omega, by omega⟩
    interval_cases c <;> rfl
  · exact ⟨by rw [h2]; decide, by omega, by omega⟩
  · exact ⟨by rw [h3]; decide, by omega, by omega⟩
  · exact ⟨by rw [h4]; decide, by omega, by omega⟩
  · exact ⟨by rw [h5]; decide, by omega, by omega⟩
  · exact ⟨by rw [h6]; decide, by omega, by omega⟩
  · exact ⟨by rw [h7]; decide, by omega, by omega⟩

theorem mapM_code_spec (code : Nat → Option Nat) (dmap : List Nat)
    (hinv : ∀ c m, code c = some m → dmap.getD m 0 = c ∧ 1 ≤ m ∧ m < 16) :
    ∀ (l ns : List Nat), l.mapM code = some ns →
      ns.length = l.length ∧ (∀ m ∈ ns, 1 ≤ m ∧ m < 16) ∧
      ns.map (fun c => dmap.getD c 0) = l := by
  intro l
  induction l with
  | nil =>
    intro ns h
    rw [List.mapM_nil] at h
    injection h with h
    subst h
    simp
  | cons a as ih =>
    intro ns h
    rw [List.mapM_cons] at h
    cases ha : code a with
    | none => rw [ha] at h; simp at h
    | some m =>
      rw [ha] at h
      cases has : as.mapM code with
      | none => rw [has] at h; simp at h
      | some ms =>
        rw [has] at h
        simp only [Option.bind_eq_bind, Option.some_bind, Option.pure_def,
          Option.some.injEq] at h
        subst h
        obtain ⟨hl, hall, hmap⟩ := ih ms has
        obtain ⟨hc1, hc2, hc3⟩ := hinv a m ha
        refine ⟨by simp [hl], ?_, ?_⟩
        · intro x hx
          rcases List.mem_cons.mp hx with hx | hx
          · subst hx; exact ⟨hc2, hc3⟩
          · exact hall x hx
        · rw [List.map_cons, hc1, hmap]

theorem unpack_pack (ns : List Nat) (hlt : ∀ m ∈ ns, m < 16)
    (hlen : ns.length ≤ INLINE_STR_LEN * 2) :
    unpackNibbles (packNibbles ns)
      = ns ++ List.replicate (INLINE_STR_LEN * 2 - ns.length) 0 := by
  have hget : ∀ j, ns.getD j 0 < 16 := getD_lt_of_forall ns 16 (by omega) hlt
  apply List.ext_getElem
  · simp [unpackNibbles]
    omega
  · intro i h1 h2
    have hi30 : i < INLINE_STR_LEN * 2 := by
      simpa [unpackNibbles] using h1
    simp only [unpackNibbles, List.getElem_map, List.getElem_range]
    have hb : (packNibbles ns).getD (i/2) 0
        = ns.getD (2*(i/2)) 0 + 16 * ns.getD (2*(i/2)+1) 0 := by
      unfold packNibbles
      exact getD_range_map _ _ _ _ (by omega)
    have hrhs : (ns ++ List.replicate (INLINE_STR_LEN * 2 - ns.length) 0)[i]
        = ns.getD i 0 := by
      by_cases hil : i < ns.length
      · rw [List.getElem_append_left hil, List.getD_eq_getElem?_getD,
          List.getElem?_eq_getElem hil]
        rfl
      · rw [List.getElem_append_right (by omega), List.getElem_replicate,
          getD_len_le _ _ _ (by omega)]
    rw [hrhs]
    rw [hb]
    by_cases hpar : i % 2 = 0
    · rw [if_pos hpar]
      rw [show (15:Nat) = 2^4 - 1 by norm_num, Nat.and_pow_two_sub_one_eq_mod]
      rw [show 2*(i/2) = i by omega, show (2:Nat)^4 = 16 by norm_num]
      have hu := hget i
      have hv := hget (i+1)
      omega
    · rw [if_neg hpar]
      rw [Nat.shiftRight_eq_div_pow]
      rw [show 2*(i/2)+1 = i by omega, show (2:Nat)^4 = 16 by norm_num]
      have hu := hget (2*(i/2))
      have hv := hget i
      omega

theorem uncompress_compress_bcd (l out : List Nat)
    (h : compress_bcd l = some out) : uncompress_bcd out = l := by
  unfold compress_bcd at h
  by_cases hlen : INLINE_STR_LEN * 2 < l.length
  · rw [if_pos hlen] at h; cases h
  · rw [if_neg hlen] at h
    cases hm : l.mapM bcdCode with
    | none => rw [hm] at h; cases h
    | some ns =>
      rw [hm] at h
      injection h with h
      subst h
      obtain ⟨hl, hall, hmap⟩ := mapM_code_spec bcdCode bcd_map bcdCode_inverse l ns hm
      unfold uncompress_bcd
      rw [unpack_pack ns (fun m hm2 => (hall m hm2).2) (by omega)]
      rw [show ns ++ List.replicate (INLINE_STR_LEN * 2 - ns.length) 0
        = padTo (INLINE_STR_LEN * 2) ns from rfl]
      rw [takeWhile_pad ns _ (fun c hc => by have := hall c hc; omega)]
      exact hmap

theorem uncompress_compress_bcdate (l out : List Nat)
    (h : compress_bcdate l = some out) : uncompress_bcdate out = l := by
  unfold compress_bcdate at h
  by_cases hlen : INLINE_STR_LEN * 2 < l.length
  · rw [if_pos hlen] at h; cases h
  · rw [if_neg hlen] at h
    cases hm : l.mapM bcdateCode with
    | none => rw [hm] at h; cases h
    | some ns =>
      rw [hm] at h
      injection h with h
      subst h
      obtain ⟨hl, hall, hmap⟩ :=
        mapM_code_spec bcdateCode bcdate_map bcdateCode_inverse l ns hm
      unfold uncompress_bcdate
      rw [unpack_pack ns (fun m hm2 => (hall m hm2).2) (by omega)]
      rw [show ns ++ List.replicate (INLINE_STR_LEN * 2 - ns.length) 0
        = padTo (INLINE_STR_LEN * 2) ns from rfl]
      rw [takeWhile_pad ns _ (fun c hc => by have := hall c hc; omega)]
      exact hmap

/-! ## Claim C1: prefix dictionary lemmas -/

theorem getCodeStep_inv (prefixes : List (List Nat)) (lex : List Nat) :
    ∀ (cs : List Nat) (acc : Option (Nat × Nat)),
      (∀ c0 ∈ cs, c0 < prefixes.length) →
      (∀ q : Nat × Nat, acc = some q → q.1 < prefixes.length ∧ 0 < q.2 ∧
        q.2 = (prefixes.getD q.1 []).length ∧ prefixes.getD q.1 [] = lex.take q.2) →
      ∀ q : Nat × Nat, cs.foldl (getCodeStep prefixes lex) acc = some q →
        q.1 < prefixes.length ∧ 0 < q.2 ∧
        q.2 = (prefixes.getD q.1 []).length ∧ prefixes.getD q.1 [] = lex.take q.2 := by
  intro cs
  induction cs with
  | nil => intro acc _ hacc q h; exact hacc q h
  | cons c0 cs ih =>
    intro acc hcs hacc q h
    rw [List.foldl_cons] at h
    refine ih (getCodeStep prefixes lex acc c0) (fun c1 hc1 => hcs c1 (by simp [hc1]))
      ?_ q h
    intro q' hq'
    unfold getCodeStep at hq'
    by_cases hcond : prefixes.getD c0 [] ≠ [] ∧ (prefixes.getD c0 []).isPrefixOf lex
    · rw [if_pos hcond] at hq'
      have hmain : ∀ _ : q' = (c0, (prefixes.getD c0 []).length),
          q'.1 < prefixes.length ∧ 0 < q'.2 ∧
          q'.2 = (prefixes.getD q'.1 []).length ∧
          prefixes.getD q'.1 [] = lex.take q'.2 := by
        intro hq''
        subst hq''
        refine ⟨hcs c0 (by simp), ?_, rfl, ?_⟩
        · exact List.length_pos.mpr hcond.1
        · exact List.prefix_iff_eq_take.mp (List.isPrefixOf_iff_prefix.mp hcond.2)
      cases hav : acc with
      | none =>
        rw [hav] at hq'
        dsimp only at hq'
        injection hq' with hq'
        exact hmain hq'.symm
      | some b =>
        rw [hav] at hq'
        dsimp only at hq'
        by_cases hb2 : b.2 < (prefixes.getD c0 []).length
        · rw [if_pos hb2] at hq'
          injection hq' with hq'
          exact hmain hq'.symm
        · rw [if_neg hb2] at hq'
          injection hq' with hq'
          exact hacc q' (by rw [hav, hq'])
    · rw [if_neg hcond] at hq'
      exact hacc q' hq'

theorem fs_prefix_trie_get_code_spec (prefixes : List (List Nat)) (lex : List Nat)
    (c len : Nat) (h : fs_prefix_trie_get_code prefixes lex = some (c, len)) :
    c < prefixes.length ∧ 0 < len ∧ len = (prefixes.getD c []).length ∧
      prefixes.getD c [] = lex.take len := by
  have := getCodeStep_inv prefixes lex (List.range prefixes.length) none
    (fun c0 hc0 => List.mem_range.mp hc0) (fun q hq => by cases hq) (c, len) h
  exact this

/-! ## Claim C1: `get_entry` branch equations -/

theorem get_entry_i (prefixes : List (List Nat)) (lexFile : List Nat) (z : ZCodec)
    (rid aval : Nat) (bs : List Nat) :
    get_entry prefixes lexFile z ⟨rid, aval, .bytes bs, 'i'⟩
      = some (aval, bs.takeWhile (fun c : Nat => c ≠ 0)) := rfl

theorem get_entry_N (prefixes : List (List Nat)) (lexFile : List Nat) (z : ZCodec)
    (rid aval : Nat) (bs : List Nat) :
    get_entry prefixes lexFile z ⟨rid, aval, .bytes bs, 'N'⟩
      = some (aval, uncompress_bcd bs) := rfl

theorem get_entry_D (prefixes : List (List Nat)) (lexFile : List Nat) (z : ZCodec)
    (rid aval : Nat) (bs : List Nat) :
    get_entry prefixes lexFile z ⟨rid, aval, .bytes bs, 'D'⟩
      = some (aval, uncompress_bcdate bs) := rfl

theorem get_entry_p (prefixes : List (List Nat)) (lexFile : List Nat) (z : ZCodec)
    (rid aval : Nat) (bs : List Nat) (h : avalByte aval 0 < prefixes.length) :
    get_entry prefixes lexFile z ⟨rid, aval, .bytes bs, 'p'⟩
      = some (aval, prefixes.getD (avalByte aval 0) []
          ++ (pstrTail aval).takeWhile (fun c : Nat => c ≠ 0)
          ++ bs.takeWhile (fun c : Nat => c ≠ 0)) := by
  unfold get_entry
  dsimp only
  rw [if_neg (show ¬ ('p' : Char) = 'i' by decide),
    if_neg (show ¬ ('p' : Char) = 'N' by decide),
    if_neg (show ¬ ('p' : Char) = 'D' by decide), if_pos rfl]
  try dsimp only
  rw [if_neg (by omega : ¬ prefixes.length ≤ avalByte aval 0)]

theorem get_entry_f (prefixes : List (List Nat)) (lexFile : List Nat) (z : ZCodec)
    (rid aval o len : Nat) (bs : List Nat)
    (h1 : readLE32 lexFile o = some len)
    (h2 : lexRead lexFile (o + 4) len = some bs) :
    get_entry prefixes lexFile z ⟨rid, aval, .off o, 'f'⟩ = some (aval, bs) := by
  unfold get_entry
  dsimp only
  rw [if_neg (show ¬ ('f' : Char) = 'i' by decide),
    if_neg (show ¬ ('f' : Char) = 'N' by decide),
    if_neg (show ¬ ('f' : Char) = 'D' by decide),
    if_neg (show ¬ ('f' : Char) = 'p' by decide), if_pos rfl]
  try dsimp only
  rw [h1]
  try dsimp only
  rw [h2]

theorem get_entry_P (prefixes : List (List Nat)) (lexFile : List Nat) (z : ZCodec)
    (rid aval o slen : Nat) (suffix : List Nat)
    (h : avalByte aval 0 < prefixes.length)
    (h1 : readLE32 lexFile o = some slen)
    (h2 : lexRead lexFile (o + 4) slen = some suffix) :
    get_entry prefixes lexFile z ⟨rid, aval, .off o, 'P'⟩
      = some (aval, prefixes.getD (avalByte aval 0) [] ++ suffix) := by
  unfold get_entry
  dsimp only
  rw [if_neg (show ¬ ('P' : Char) = 'i' by decide),
    if_neg (show ¬ ('P' : Char) = 'N' by decide),
    if_neg (show ¬ ('P' : Char) = 'D' by decide),
    if_neg (show ¬ ('P' : Char) = 'p' by decide),
    if_neg (show ¬ ('P' : Char) = 'f' by decide), if_pos rfl]
  try dsimp only
  rw [if_neg (by omega : ¬ prefixes.length ≤ avalByte aval 0)]
  try dsimp only
  rw [h1]
  try dsimp only
  rw [h2]

theorem get_entry_Z (prefixes : List (List Nat)) (lexFile : List Nat) (z : ZCodec)
    (rid aval o dlen llen : Nat) (data out : List Nat)
    (hd : readLE32 lexFile o = some dlen)
    (hl : readLE32 lexFile (o + 4) = some llen)
    (hdata : lexRead lexFile (o + 8) dlen = some data)
    (hu : z.uncomp data llen = some out) :
    get_entry prefixes lexFile z ⟨rid, aval, .off o, 'Z'⟩
      = some (aval, out.take llen) := by
  unfold get_entry
  dsimp only
  rw [if_neg (show ¬ ('Z' : Char) = 'i' by decide),
    if_neg (show ¬ ('Z' : Char) = 'N' by decide),
    if_neg (show ¬ ('Z' : Char) = 'D' by decide),
    if_neg (show ¬ ('Z' : Char) = 'p' by decide),
    if_neg (show ¬ ('Z' : Char) = 'f' by decide),
    if_neg (show ¬ ('Z' : Char) = 'P' by decide), if_pos rfl]
  try dsimp only
  rw [hd]
  try dsimp only
  rw [hl]
  try dsimp only
  rw [hdata]
  try dsimp only
  rw [hu]

/-! ## Claim C1: `rhashEncode` branch equations -/

theorem rhashEncode_inline (isURI : Nat → Bool) (z : ZCodec) (rh : FsRhash)
    (res : FsResource) (h : res.lex.length ≤ INLINE_STR_LEN) :
    rhashEncode isURI z rh res
      = (⟨res.rid, res.attr, .bytes (padTo INLINE_STR_LEN res.lex), 'i'⟩, rh.lexFile) := by
  unfold rhashEncode
  rw [if_pos h]

theorem rhashEncode_bcd (isURI : Nat → Bool) (z : ZCodec) (rh : FsRhash)
    (res : FsResource) (bs : List Nat) (h15 : ¬ res.lex.length ≤ INLINE_STR_LEN)
    (hbc : compress_bcd res.lex = some bs) :
    rhashEncode isURI z rh res
      = (⟨res.rid, res.attr, .bytes bs, 'N'⟩, rh.lexFile) := by
  unfold rhashEncode
  rw [if_neg h15, hbc]

theorem rhashEncode_bcdate (isURI : Nat → Bool) (z : ZCodec) (rh : FsRhash)
    (res : FsResource) (bs : List Nat) (h15 : ¬ res.lex.length ≤ INLINE_STR_LEN)
    (hbc : compress_bcd res.lex = none) (hbd : compress_bcdate res.lex = some bs) :
    rhashEncode isURI z rh res
      = (⟨res.rid, res.attr, .bytes bs, 'D'⟩, rh.lexFile) := by
  unfold rhashEncode
  rw [if_neg h15, hbc]
  dsimp only
  rw [hbd]

theorem rhashEncode_P (isURI : Nat → Bool) (z : ZCodec) (rh : FsRhash)
    (res : FsResource) (cl : Nat × Nat) (h15 : ¬ res.lex.length ≤ INLINE_STR_LEN)
    (hbc : compress_bcd res.lex = none) (hbd : compress_bcdate res.lex = none)
    (hpre : (if isURI res.rid then fs_prefix_trie_get_code rh.prefixes res.lex else none)
      = some cl)
    (h22 : 22 < (res.lex.drop cl.2).length) :
    rhashEncode isURI z rh res
      = (⟨res.rid, (res.attr / 256) * 256 + cl.1, .off rh.lexFile.length, 'P'⟩,
         rh.lexFile ++ le32 (res.lex.drop cl.2).length ++ res.lex.drop cl.2 ++ [0]) := by
  unfold rhashEncode
  rw [if_neg h15, hbc]
  dsimp only
  rw [hbd]
  dsimp only
  rw [hpre]
  dsimp only
  rw [if_pos h22]

theorem rhashEncode_p (isURI : Nat → Bool) (z : ZCodec) (rh : FsRhash)
    (res : FsResource) (cl : Nat × Nat) (h15 : ¬ res.lex.length ≤ INLINE_STR_LEN)
    (hbc : compress_bcd res.lex = none) (hbd : compress_bcdate res.lex = none)
    (hpre : (if isURI res.rid then fs_prefix_trie_get_code rh.prefixes res.lex else none)
      = some cl)
    (h22 : ¬ 22 < (res.lex.drop cl.2).length) :
    rhashEncode isURI z rh res
      = (⟨res.rid, packBytesLE (cl.1 :: padTo 7 ((res.lex.drop cl.2).take 7)),
          .bytes (if 7 < (res.lex.drop cl.2).length
                  then padTo INLINE_STR_LEN ((res.lex.drop cl.2).drop 7)
                  else List.replicate INLINE_STR_LEN 0),
          'p'⟩, rh.lexFile) := by
  unfold rhashEncode
  rw [if_neg h15, hbc]
  dsimp only
  rw [hbd]
  dsimp only
  rw [hpre]
  dsimp only
  rw [if_neg h22]

theorem rhashEncode_f_nocomp (isURI : Nat → Bool) (z : ZCodec) (rh : FsRhash)
    (res : FsResource) (h15 : ¬ res.lex.length ≤ INLINE_STR_LEN)
    (hbc : compress_bcd res.lex = none) (hbd : compress_bcdate res.lex = none)
    (hpre : (if isURI res.rid then fs_prefix_trie_get_code rh.prefixes res.lex else none)
      = none)
    (hcomp : (if 100 < res.lex.length then z.comp res.lex else none) = none) :
    rhashEncode isURI z rh res
      = (⟨res.rid, res.attr, .off rh.lexFile.length, 'f'⟩,
         rh.lexFile ++ le32 res.lex.length ++ res.lex ++ [0]) := by
  unfold rhashEncode
  rw [if_neg h15, hbc]
  dsimp only
  rw [hbd]
  dsimp only
  rw [hpre]
  dsimp only
  rw [hcomp]

theorem rhashEncode_f_compfail (isURI : Nat → Bool) (z : ZCodec) (rh : FsRhash)
    (res : FsResource) (out : List Nat) (h15 : ¬ res.lex.length ≤ INLINE_STR_LEN)
    (hbc : compress_bcd res.lex = none) (hbd : compress_bcdate res.lex = none)
    (hpre : (if isURI res.rid then fs_prefix_trie_get_code rh.prefixes res.lex else none)
      = none)
    (hcomp : (if 100 < res.lex.length then z.comp res.lex else none) = some out)
    (hcond : ¬ (out ≠ [] ∧ out.length < res.lex.length - 4)) :
    rhashEncode isURI z rh res
      = (⟨res.rid, res.attr, .off rh.lexFile.length, 'f'⟩,
         rh.lexFile ++ le32 res.lex.length ++ res.lex ++ [0]) := by
  unfold rhashEncode
  rw [if_neg h15, hbc]
  dsimp only
  rw [hbd]
  dsimp only
  rw [hpre]
  dsimp only
  rw [hcomp]
  dsimp only
  rw [if_neg hcond]

theorem rhashEncode_Z (isURI : Nat → Bool) (z : ZCodec) (rh : FsRhash)
    (res : FsResource) (out : List Nat) (h15 : ¬ res.lex.length ≤ INLINE_STR_LEN)
    (hbc : compress_bcd res.lex = none) (hbd : compress_bcdate res.lex = none)
    (hpre : (if isURI res.rid then fs_prefix_trie_get_code rh.prefixes res.lex else none)
      = none)
    (hcomp : (if 100 < res.lex.length then z.comp res.lex else none) = some out)
    (hcond : out ≠ [] ∧ out.length < res.lex.length - 4) :
    rhashEncode isURI z rh res
      = (⟨res.rid, res.attr, .off rh.lexFile.length, 'Z'⟩,
         rh.lexFile ++ le32 out.length ++ le32 res.lex.length ++ out ++ [0]) := by
  unfold rhashEncode
  rw [if_neg h15, hbc]
  dsimp only
  rw [hbd]
  dsimp only
  rw [hpre]
  dsimp only
  rw [hcomp]
  dsimp only
  rw [if_pos hcond]

/-- Decoding the entry produced by `rhashEncode` against the lex file it
produced returns the stored `aval` together with the original lexical bytes;
the stored `aval` equals the original `attr` whenever the resource is not
prefix-coded. -/
theorem rhashEncode_roundtrip (isURI : Nat → Bool) (z : ZCodec) (rh : FsRhash)
    (res : FsResource) (hz : ZCodecOK z)
    (hbytes : ∀ c ∈ res.lex, 0 < c ∧ c < 256) (hlen31 : res.lex.length < 2 ^ 31)
    (hpc : rh.prefixes.length ≤ FS_MAX_PREFIXES) :
    (rhashEncode isURI z rh res).1.rid = res.rid ∧
    get_entry rh.prefixes (rhashEncode isURI z rh res).2 z (rhashEncode isURI z rh res).1
      = some ((rhashEncode isURI z rh res).1.aval, res.lex) ∧
    (¬ rhashPrefixCoded rh.prefixes isURI res →
      (rhashEncode isURI z rh res).1.aval = res.attr) := by
  have hnz : ∀ c ∈ res.lex, c ≠ 0 := fun c hc => by have := (hbytes c hc).1; omega
  have hlt : ∀ c ∈ res.lex, c < 256 := fun c hc => (hbytes c hc).2
  have hlen32 : res.lex.length < 4294967296 := by
    have := hlen31
    rw [show (2:Nat)^31 = 2147483648 by norm_num] at this
    omega
  by_cases h15 : res.lex.length ≤ INLINE_STR_LEN
  · rw [rhashEncode_inline isURI z rh res h15]
    refine ⟨rfl, ?_, fun _ => rfl⟩
    rw [get_entry_i, takeWhile_pad res.lex INLINE_STR_LEN hnz]
  · cases hbc : compress_bcd res.lex with
    | some bs =>
      rw [rhashEncode_bcd isURI z rh res bs h15 hbc]
      refine ⟨rfl, ?_, fun _ => rfl⟩
      rw [get_entry_N, uncompress_compress_bcd res.lex bs hbc]
    | none =>
      cases hbd : compress_bcdate res.lex with
      | some bs =>
        rw [rhashEncode_bcdate isURI z rh res bs h15 hbc hbd]
        refine ⟨rfl, ?_, fun _ => rfl⟩
        rw [get_entry_D, uncompress_compress_bcdate res.lex bs hbd]
      | none =>
        cases hpre : (if isURI res.rid then fs_prefix_trie_get_code rh.prefixes res.lex
            else none) with
        | some cl =>
          have hu : isURI res.rid = true := by
            cases hu2 : isURI res.rid with
            | true => rfl
            | false => rw [if_neg (by simp [hu2])] at hpre; cases hpre
          have hcode : fs_prefix_trie_get_code rh.prefixes res.lex = some cl := by
            rw [if_pos hu] at hpre
            exact hpre
          obtain ⟨hclt, hlpos, hleq, htake⟩ :=
            fs_prefix_trie_get_code_spec rh.prefixes res.lex cl.1 cl.2 hcode
          have hps : rh.prefixes.getD cl.1 [] ++ res.lex.drop cl.2 = res.lex := by
            rw [htake]
            exact List.take_append_drop cl.2 res.lex
          have hpc' : rh.prefixes.length ≤ 256 := hpc
          have hcode256 : cl.1 < 256 := by omega
          have hsub : ∀ c ∈ res.lex.drop cl.2, c ∈ res.lex :=
            fun c hc => List.drop_subset _ _ hc
          have hcoded : rhashPrefixCoded rh.prefixes isURI res :=
            ⟨by omega, hbc, hbd, hu, by rw [hcode]; rfl⟩
          by_cases h22 : 22 < (res.lex.drop cl.2).length
          · rw [rhashEncode_P isURI z rh res cl h15 hbc hbd hpre h22]
            have hav : avalByte ((res.attr / 256) * 256 + cl.1) 0 = cl.1 := by
              rw [avalByte_zero_mod]
              omega
            have hdlen : (res.lex.drop cl.2).length < 4294967296 := by
              rw [List.length_drop]
              omega
            have e1 : readLE32
                (rh.lexFile ++ le32 (res.lex.drop cl.2).length ++ res.lex.drop cl.2 ++ [0])
                rh.lexFile.length = some (res.lex.drop cl.2).length := by
              rw [show rh.lexFile ++ le32 (res.lex.drop cl.2).length ++ res.lex.drop cl.2 ++ [0]
                  = rh.lexFile ++ (le32 (res.lex.drop cl.2).length ++ (res.lex.drop cl.2 ++ [0]))
                  by simp [List.append_assoc]]
              exact readLE32_exact rh.lexFile _ _ hdlen
            have e2 : lexRead
                (rh.lexFile ++ le32 (res.lex.drop cl.2).length ++ res.lex.drop cl.2 ++ [0])
                (rh.lexFile.length + 4) (res.lex.drop cl.2).length
                = some (res.lex.drop cl.2) := by
              have hx := lexRead_exact (rh.lexFile ++ le32 (res.lex.drop cl.2).length)
                (res.lex.drop cl.2) [0]
              rw [show (rh.lexFile ++ le32 (res.lex.drop cl.2).length).length
                  = rh.lexFile.length + 4 by simp [le32]] at hx
              rw [show rh.lexFile ++ le32 (res.lex.drop cl.2).length ++ res.lex.drop cl.2 ++ [0]
                  = (rh.lexFile ++ le32 (res.lex.drop cl.2).length) ++ (res.lex.drop cl.2 ++ [0])
                  by simp [List.append_assoc]]
              exact hx
            refine ⟨rfl, ?_, fun hn => absurd hcoded hn⟩
            rw [get_entry_P rh.prefixes _ z res.rid _ rh.lexFile.length _ _
              (by rw [hav]; exact hclt) e1 e2]
            rw [hav, hps]
          · rw [rhashEncode_p isURI z rh res cl h15 hbc hbd hpre h22]
            have htlt : ∀ c ∈ (res.lex.drop cl.2).take 7, c < 256 :=
              fun c hc => hlt c (hsub c (List.take_subset _ _ hc))
            have hall : ∀ c ∈ cl.1 :: padTo 7 ((res.lex.drop cl.2).take 7), c < 256 := by
              intro c hc
              rcases List.mem_cons.mp hc with hc | hc
              · rw [hc]; exact hcode256
              · exact padTo_mem_lt _ 7 256 (by omega) htlt c hc
            have hav0 : avalByte (packBytesLE (cl.1 :: padTo 7 ((res.lex.drop cl.2).take 7))) 0
                = cl.1 := by
              rw [avalByte_packBytesLE _ hall 0]
              rfl
            have htail : pstrTail (packBytesLE (cl.1 :: padTo 7 ((res.lex.drop cl.2).take 7)))
                = padTo 7 ((res.lex.drop cl.2).take 7) := by
              apply pstrTail_pack cl.1 _ (fun c hc => hall c (List.mem_cons_of_mem _ hc))
                hcode256
              apply padTo_length
              rw [List.length_take]
              omega
            have htw : (padTo 7 ((res.lex.drop cl.2).take 7)).takeWhile
                (fun c : Nat => c ≠ 0) = (res.lex.drop cl.2).take 7 :=
              takeWhile_pad _ 7 (fun c hc => hnz c (hsub c (List.take_subset _ _ hc)))
            by_cases h7 : 7 < (res.lex.drop cl.2).length
            · rw [if_pos h7]
              refine ⟨rfl, ?_, fun hn => absurd hcoded hn⟩
              rw [get_entry_p rh.prefixes rh.lexFile z res.rid _ _
                (by rw [hav0]; exact hclt)]
              rw [hav0, htail, htw]
              rw [takeWhile_pad _ INLINE_STR_LEN
                (fun c hc => hnz c (hsub c (List.drop_subset _ _ hc)))]
              rw [List.append_assoc, List.take_append_drop, hps]
            · rw [if_neg h7]
              refine ⟨rfl, ?_, fun hn => absurd hcoded hn⟩
              rw [get_entry_p rh.prefixes rh.lexFile z res.rid _ _
                (by rw [hav0]; exact hclt)]
              rw [hav0, htail, htw, takeWhile_replicate_zero, List.append_nil]
              rw [List.take_of_length_le (by omega), hps]
        | none =>
          cases hcomp : (if 100 < res.lex.length then z.comp res.lex else none) with
          | none =>
            rw [rhashEncode_f_nocomp isURI z rh res h15 hbc hbd hpre hcomp]
            refine ⟨rfl, ?_, fun _ => rfl⟩
            have e1 : readLE32 (rh.lexFile ++ le32 res.lex.length ++ res.lex ++ [0])
                rh.lexFile.length = some res.lex.length := by
              rw [show rh.lexFile ++ le32 res.lex.length ++ res.lex ++ [0]
                  = rh.lexFile ++ (le32 res.lex.length ++ (res.lex ++ [0]))
                  by simp [List.append_assoc]]
              exact readLE32_exact rh.lexFile _ _ hlen32
            have e2 : lexRead (rh.lexFile ++ le32 res.lex.length ++ res.lex ++ [0])
                (rh.lexFile.length + 4) res.lex.length = some res.lex := by
              have hx := lexRead_exact (rh.lexFile ++ le32 res.lex.length) res.lex [0]
              rw [show (rh.lexFile ++ le32 res.lex.length).length
                  = rh.lexFile.length + 4 by simp [le32]] at hx
              rw [show rh.lexFile ++ le32 res.lex.length ++ res.lex ++ [0]
                  = (rh.lexFile ++ le32 res.lex.length) ++ (res.lex ++ [0])
                  by simp [List.append_assoc]]
              exact hx
            exact get_entry_f rh.prefixes _ z res.rid res.attr rh.lexFile.length
              res.lex.length res.lex e1 e2
          | some out =>
            have h100 : 100 < res.lex.length := by
              by_cases h100 : 100 < res.lex.length
              · exact h100
              · rw [if_neg h100] at hcomp; cases hcomp
            have hzc : z.comp res.lex = some out := by
              rw [if_pos h100] at hcomp
              exact hcomp
            by_cases hcond : out ≠ [] ∧ out.length < res.lex.length - 4
            · rw [rhashEncode_Z isURI z rh res out h15 hbc hbd hpre hcomp hcond]
              refine ⟨rfl, ?_, fun _ => rfl⟩
              have hout32 : out.length < 4294967296 := by
                have := hcond.2
                omega
              have hd : readLE32
                  (rh.lexFile ++ le32 out.length ++ le32 res.lex.length ++ out ++ [0])
                  rh.lexFile.length = some out.length := by
                rw [show rh.lexFile ++ le32 out.length ++ le32 res.lex.length ++ out ++ [0]
                    = rh.lexFile ++ (le32 out.length ++ (le32 res.lex.length ++ (out ++ [0])))
                    by simp [List.append_assoc]]
                exact readLE32_exact rh.lexFile _ _ hout32
              have hlr : readLE32
                  (rh.lexFile ++ le32 out.length ++ le32 res.lex.length ++ out ++ [0])
                  (rh.lexFile.length + 4) = some res.lex.length := by
                have hx := readLE32_exact (rh.lexFile ++ le32 out.length)
                  res.lex.length (out ++ [0]) hlen32
                rw [show (rh.lexFile ++ le32 out.length).length
                    = rh.lexFile.length + 4 by simp [le32]] at hx
                rw [show rh.lexFile ++ le32 out.length ++ le32 res.lex.length ++ out ++ [0]
                    = (rh.lexFile ++ le32 out.length) ++ (le32 res.lex.length ++ (out ++ [0]))
                    by simp [List.append_assoc]]
                exact hx
              have hdata : lexRead
                  (rh.lexFile ++ le32 out.length ++ le32 res.lex.length ++ out ++ [0])
                  (rh.lexFile.length + 8) out.length = some out := by
                have hx := lexRead_exact (rh.lexFile ++ le32 out.length ++ le32 res.lex.length)
                  out [0]
                rw [show (rh.lexFile ++ le32 out.length ++ le32 res.lex.length).length
                    = rh.lexFile.length + 8 by simp [le32]] at hx
                rw [show rh.lexFile ++ le32 out.length ++ le32 res.lex.length ++ out ++ [0]
                    = (rh.lexFile ++ le32 out.length ++ le32 res.lex.length) ++ (out ++ [0])
                    by simp [List.append_assoc]]
                exact hx
              rw [get_entry_Z rh.prefixes _ z res.rid res.attr rh.lexFile.length
                out.length res.lex.length out res.lex hd hlr hdata (hz res.lex out hzc)]
              rw [List.take_length]
            · rw [rhashEncode_f_compfail isURI z rh res out h15 hbc hbd hpre hcomp hcond]
              refine ⟨rfl, ?_, fun _ => rfl⟩
              have e1 : readLE32 (rh.lexFile ++ le32 res.lex.length ++ res.lex ++ [0])
                  rh.lexFile.length = some res.lex.length := by
                rw [show rh.lexFile ++ le32 res.lex.length ++ res.lex ++ [0]
                    = rh.lexFile ++ (le32 res.lex.length ++ (res.lex ++ [0]))
                    by simp [List.append_assoc]]
                exact readLE32_exact rh.lexFile _ _ hlen32
              have e2 : lexRead (rh.lexFile ++ le32 res.lex.length ++ res.lex ++ [0])
                  (rh.lexFile.length + 4) res.lex.length = some res.lex := by
                have hx := lexRead_exact (rh.lexFile ++ le32 res.lex.length) res.lex [0]
                rw [show (rh.lexFile ++ le32 res.lex.length).length
                    = rh.lexFile.length + 4 by simp [le32]] at hx
                rw [show rh.lexFile ++ le32 res.lex.length ++ res.lex ++ [0]
                    = (rh.lexFile ++ le32 res.lex.length) ++ (res.lex ++ [0])
                    by simp [List.append_assoc]]
                exact hx
              exact get_entry_f rh.prefixes _ z res.rid res.attr rh.lexFile.length
                res.lex.length res.lex e1 e2

/-! ## Claim C1: probe characterisation and state invariants of `fs_rhash_put_r` -/

theorem getD_rid_ne (ents : List REntry) (rid : Nat)
    (habs : ∀ e ∈ ents, e.rid ≠ rid) (hr : rid ≠ 0) (idx : Nat) :
    (ents.getD idx blankR).rid ≠ rid := by
  by_cases hlen : idx < ents.length
  · rw [List.getD_eq_getElem?_getD, List.getElem?_eq_getElem hlen]
    exact habs _ (List.getElem_mem hlen)
  · rw [getD_len_le _ _ _ (by omega)]
    exact fun h0 => hr h0.symm

theorem rhashProbeAux_not_found (ents : List REntry) (rid bound : Nat)
    (habs : ∀ e ∈ ents, e.rid ≠ rid) (hr : rid ≠ 0) :
    ∀ (j idx : Nat) (acc : Option Nat),
      rhashProbeAux ents rid bound idx j acc ≠ .found := by
  intro j
  induction j with
  | zero =>
    intro idx acc h
    unfold rhashProbeAux at h
    cases acc with
    | none => cases h
    | some m => cases h
  | succ j ih =>
    intro idx acc h
    unfold rhashProbeAux at h
    dsimp only at h
    by_cases hb : bound ≤ idx
    · rw [if_pos hb] at h
      cases acc with
      | none => cases h
      | some m => cases h
    · rw [if_neg hb] at h
      rw [if_neg (getD_rid_ne ents rid habs hr idx)] at h
      exact ih (idx+1) _ h

theorem rhashProbeAux_empty_loc (ents : List REntry) (rid bound : Nat) :
    ∀ (j idx : Nat) (acc : Option Nat) (n : Nat),
      rhashProbeAux ents rid bound idx j acc = .empty n →
      ((acc = none → idx ≤ n ∧ n < idx + j ∧ n < bound ∧
          (ents.getD n blankR).rid = 0) ∧
       (∀ m, acc = some m → n = m)) := by
  intro j
  induction j with
  | zero =>
    intro idx acc n h
    unfold rhashProbeAux at h
    cases acc with
    | none => cases h
    | some m =>
      injection h with h2
      exact ⟨fun hc => (nomatch hc),
        fun m' hm => (by injection hm with hm2; omega)⟩
  | succ j ih =>
    intro idx acc n h
    unfold rhashProbeAux at h
    dsimp only at h
    by_cases hb : bound ≤ idx
    · rw [if_pos hb] at h
      cases acc with
      | none => cases h
      | some m =>
        injection h with h2
        exact ⟨fun hc => (nomatch hc),
          fun m' hm => (by injection hm with hm2; omega)⟩
    · rw [if_neg hb] at h
      by_cases hf : (ents.getD idx blankR).rid = rid
      · rw [if_pos hf] at h
        cases h
      · rw [if_neg hf] at h
        by_cases hz : (ents.getD idx blankR).rid = 0 ∧ acc = none
        · rw [if_pos hz] at h
          have hn := (ih (idx+1) (some idx) n h).2 idx rfl
          refine ⟨fun _ => ⟨by omega, by omega, by omega, by rw [hn]; exact hz.1⟩,
            fun m hm => ?_⟩
          rw [hz.2] at hm
          cases hm
        · rw [if_neg hz] at h
          have ihh := ih (idx+1) acc n h
          refine ⟨fun hacc => ?_, fun m hm => ihh.2 m hm⟩
          obtain ⟨h1, h2, h3, h4⟩ := ihh.1 hacc
          exact ⟨by omega, by omega, h3, h4⟩

theorem rhashProbe_empty_loc (rh : FsRhash) (rid entry n : Nat)
    (h : rhashProbe rh rid entry = .empty n) :
    entry ≤ n ∧ n < entry + rh.searchDist ∧ n < rh.size * rh.bucketSize ∧
      (rh.entries.getD n blankR).rid = 0 :=
  (rhashProbeAux_empty_loc rh.entries rid (rh.size * rh.bucketSize)
    rh.searchDist entry none n h).1 rfl

theorem rhashEncode_rid (isURI : Nat → Bool) (z : ZCodec) (rh : FsRhash)
    (res : FsResource) : (rhashEncode isURI z rh res).1.rid = res.rid := by
  by_cases h15 : res.lex.length ≤ INLINE_STR_LEN
  · rw [rhashEncode_inline isURI z rh res h15]
  · cases hbc : compress_bcd res.lex with
    | some bs => rw [rhashEncode_bcd isURI z rh res bs h15 hbc]
    | none =>
      cases hbd : compress_bcdate res.lex with
      | some bs => rw [rhashEncode_bcdate isURI z rh res bs h15 hbc hbd]
      | none =>
        cases hpre : (if isURI res.rid then fs_prefix_trie_get_code rh.prefixes res.lex
            else none) with
        | some cl =>
          by_cases h22 : 22 < (res.lex.drop cl.2).length
          · rw [rhashEncode_P isURI z rh res cl h15 hbc hbd hpre h22]
          · rw [rhashEncode_p isURI z rh res cl h15 hbc hbd hpre h22]
        | none =>
          cases hcomp : (if 100 < res.lex.length then z.comp res.lex else none) with
          | none => rw [rhashEncode_f_nocomp isURI z rh res h15 hbc hbd hpre hcomp]
          | some out =>
            by_cases hcond : out ≠ [] ∧ out.length < res.lex.length - 4
            · rw [rhashEncode_Z isURI z rh res out h15 hbc hbd hpre hcomp hcond]
            · rw [rhashEncode_f_compfail isURI z rh res out h15 hbc hbd hpre hcomp hcond]

theorem rhashEncode_congr (isURI : Nat → Bool) (z : ZCodec) (rh1 rh2 : FsRhash)
    (res : FsResource) (hp : rh1.prefixes = rh2.prefixes)
    (hl : rh1.lexFile = rh2.lexFile) :
    rhashEncode isURI z rh1 res = rhashEncode isURI z rh2 res := by
  unfold rhashEncode
  rw [hp, hl]

theorem rhashEncode_lex_extends (isURI : Nat → Bool) (z : ZCodec) (rh : FsRhash)
    (res : FsResource) :
    ∃ app, (rhashEncode isURI z rh res).2 = rh.lexFile ++ app := by
  by_cases h15 : res.lex.length ≤ INLINE_STR_LEN
  · rw [rhashEncode_inline isURI z rh res h15]
    exact ⟨[], by simp⟩
  · cases hbc : compress_bcd res.lex with
    | some bs =>
      rw [rhashEncode_bcd isURI z rh res bs h15 hbc]
      exact ⟨[], by simp⟩
    | none =>
      cases hbd : compress_bcdate res.lex with
      | some bs =>
        rw [rhashEncode_bcdate isURI z rh res bs h15 hbc hbd]
        exact ⟨[], by simp⟩
      | none =>
        cases hpre : (if isURI res.rid then fs_prefix_trie_get_code rh.prefixes res.lex
            else none) with
        | some cl =>
          by_cases h22 : 22 < (res.lex.drop cl.2).length
          · rw [rhashEncode_P isURI z rh res cl h15 hbc hbd hpre h22]
            exact ⟨le32 (res.lex.drop cl.2).length ++ (res.lex.drop cl.2 ++ [0]),
              by simp [List.append_assoc]⟩
          · rw [rhashEncode_p isURI z rh res cl h15 hbc hbd hpre h22]
            exact ⟨[], by simp⟩
        | none =>
          cases hcomp : (if 100 < res.lex.length then z.comp res.lex else none) with
          | none =>
            rw [rhashEncode_f_nocomp isURI z rh res h15 hbc hbd hpre hcomp]
            exact ⟨le32 res.lex.length ++ (res.lex ++ [0]), by simp [List.append_assoc]⟩
          | some out =>
            by_cases hcond : out ≠ [] ∧ out.length < res.lex.length - 4
            · rw [rhashEncode_Z isURI z rh res out h15 hbc hbd hpre hcomp hcond]
              exact ⟨le32 out.length ++ (le32 res.lex.length ++ (out ++ [0])),
                by simp [List.append_assoc]⟩
            · rw [rhashEncode_f_compfail isURI z rh res out h15 hbc hbd hpre hcomp hcond]
              exact ⟨le32 res.lex.length ++ (res.lex ++ [0]), by simp [List.append_assoc]⟩

theorem get_entry_mono (prefixes : List (List Nat)) (f app : List Nat) (z : ZCodec)
    (e : REntry) (v : Nat × List Nat) (h : get_entry prefixes f z e = some v) :
    get_entry prefixes (f ++ app) z e = some v := by
  unfold get_entry at h ⊢
  by_cases h1 : e.disp = 'i'
  · rw [if_pos h1] at h ⊢
    exact h
  · rw [if_neg h1] at h ⊢
    by_cases h2 : e.disp = 'N'
    · rw [if_pos h2] at h ⊢
      exact h
    · rw [if_neg h2] at h ⊢
      by_cases h3 : e.disp = 'D'
      · rw [if_pos h3] at h ⊢
        exact h
      · rw [if_neg h3] at h ⊢
        by_cases h4 : e.disp = 'p'
        · rw [if_pos h4] at h ⊢
          exact h
        · rw [if_neg h4] at h ⊢
          by_cases h5 : e.disp = 'f'
          · rw [if_pos h5] at h ⊢
            cases hval : e.val with
            | bytes bs =>
              rw [hval] at h
              dsimp only at h
              cases h
            | off o =>
              rw [hval] at h
              dsimp only at h
              dsimp only
              cases hrd : readLE32 f o with
              | none =>
                rw [hrd] at h
                dsimp only at h
                cases h
              | some len =>
                rw [hrd] at h
                dsimp only at h
                rw [readLE32_mono f app o len hrd]
                dsimp only
                cases hl : lexRead f (o+4) len with
                | none =>
                  rw [hl] at h
                  dsimp only at h
                  cases h
                | some bs =>
                  rw [hl] at h
                  dsimp only at h
                  rw [lexRead_mono f app (o+4) len bs hl]
                  exact h
          · rw [if_neg h5] at h ⊢
            by_cases h6 : e.disp = 'P'
            · rw [if_pos h6] at h ⊢
              dsimp only at h ⊢
              by_cases hp : prefixes.length ≤ avalByte e.aval 0
              · rw [if_pos hp] at h
                cases h
              · rw [if_neg hp] at h ⊢
                cases hval : e.val with
                | bytes bs =>
                  rw [hval] at h
                  dsimp only at h
                  cases h
                | off o =>
                  rw [hval] at h
                  dsimp only at h
                  dsimp only
                  cases hrd : readLE32 f o with
                  | none =>
                    rw [hrd] at h
                    dsimp only at h
                    cases h
                  | some slen =>
                    rw [hrd] at h
                    dsimp only at h
                    rw [readLE32_mono f app o slen hrd]
                    dsimp only
                    cases hl : lexRead f (o+4) slen with
                    | none =>
                      rw [hl] at h
                      dsimp only at h
                      cases h
                    | some suffix =>
                      rw [hl] at h
                      dsimp only at h
                      rw [lexRead_mono f app (o+4) slen suffix hl]
                      exact h
            · rw [if_neg h6] at h ⊢
              by_cases h7 : e.disp = 'Z'
              · rw [if_pos h7] at h ⊢
                cases hval : e.val with
                | bytes bs =>
                  rw [hval] at h
                  dsimp only at h
                  cases h
                | off o =>
                  rw [hval] at h
                  dsimp only at h
                  dsimp only
                  cases hrd : readLE32 f o with
                  | none =>
                    rw [hrd] at h
                    dsimp only at h
                    cases h
                  | some dlen =>
                    rw [hrd] at h
                    dsimp only at h
                    rw [readLE32_mono f app o dlen hrd]
                    dsimp only
                    cases hl2 : readLE32 f (o+4) with
                    | none =>
                      rw [hl2] at h
                      dsimp only at h
                      cases h
                    | some llen =>
                      rw [hl2] at h
                      dsimp only at h
                      rw [readLE32_mono f app (o+4) llen hl2]
                      dsimp only
                      cases hl3 : lexRead f (o+8) dlen with
                      | none =>
                        rw [hl3] at h
                        dsimp only at h
                        cases h
                      | some data =>
                        rw [hl3] at h
                        dsimp only at h
                        rw [lexRead_mono f app (o+8) dlen data hl3]
                        exact h
              · rw [if_neg h7] at h ⊢
                exact h

theorem rhash_double_wf (rh : FsRhash) (h : RhashWF rh) :
    RhashWF (fs_rhash_double_size rh).1 := by
  obtain ⟨⟨k, hk⟩, hbs, hlen, hpre⟩ := h
  refine ⟨⟨k+1, ?_⟩, hbs, ?_, hpre⟩
  · show 2 * rh.size = 2 ^ (k+1)
    rw [hk]
    ring
  · show (rh.entries.map _ ++ rh.entries.map _).length = 2 * rh.size * rh.bucketSize
    rw [List.length_append, List.length_map, List.length_map, hlen]
    ring

theorem rhash_double_absent (rh : FsRhash) (rid : Nat) (hr : rid ≠ 0)
    (h : RidAbsent rh rid) : RidAbsent (fs_rhash_double_size rh).1 rid := by
  intro e he
  rcases List.mem_append.mp he with h1 | h1
  · obtain ⟨a, ha, hae⟩ := List.mem_map.mp h1
    split at hae
    · rw [← hae]
      exact fun h0 => hr h0.symm
    · rw [← hae]
      exact h a ha
  · obtain ⟨a, ha, hae⟩ := List.mem_map.mp h1
    split at hae
    · rw [← hae]
      exact h a ha
    · rw [← hae]
      exact fun h0 => hr h0.symm

theorem putAll_cons_zero (isURI : Nat → Bool) (z : ZCodec) (fuel : Nat)
    (rh rh1 : FsRhash) (res : FsResource) (rs : List FsResource)
    (hp : fs_rhash_put_r isURI z fuel rh res = some (0, rh1)) :
    fs_rhash_putAll isURI z fuel rh (res :: rs)
      = fs_rhash_putAll isURI z fuel rh1 rs := by
  conv_lhs => unfold fs_rhash_putAll
  rw [hp]
  rfl

/-- Master invariant of one `fs_rhash_put_r` on an absent rid: the put
returns 0, keeps the state well-formed, never touches the prefix
dictionary or the search distance, sets the lex file to what the encoding
produced, leaves the encoded entry where the get probe finds it first, and
preserves the get probe's result and the absence of every other rid. -/
theorem rhash_put_spec (isURI : Nat → Bool) (z : ZCodec) :
    ∀ (fuel : Nat) (rh rh' : FsRhash) (res : FsResource) (c : Int),
      RhashWF rh → res.rid ≠ 0 → RidAbsent rh res.rid →
      fs_rhash_put_r isURI z fuel rh res = some (c, rh') →
      c = 0 ∧ RhashWF rh' ∧
      rh'.prefixes = rh.prefixes ∧
      rh'.searchDist = rh.searchDist ∧
      rh'.lexFile = (rhashEncode isURI z rh res).2 ∧
      rhashFind rh' res.rid = some (rhashEncode isURI z rh res).1 ∧
      (∀ rid' e0, rid' ≠ res.rid → rid' ≠ 0 → rhashFind rh rid' = some e0 →
        rhashFind rh' rid' = some e0) ∧
      (∀ rid', rid' ≠ res.rid → rid' ≠ 0 → RidAbsent rh rid' → RidAbsent rh' rid') := by
  intro fuel
  induction fuel with
  | zero =>
    intro rh rh' res c _ _ _ h
    cases h
  | succ fuel ih =>
    intro rh rh' res c hwf hr habs h
    obtain ⟨⟨k, hk⟩, hbs, hlen, hpre⟩ := hwf
    unfold fs_rhash_put_r at h
    dsimp only at h
    have hentry : FS_RHASH_ENTRY rh res.rid < rh.size * rh.bucketSize := by
      show ((res.rid >>> 10) &&& (rh.size - 1)) * rh.bucketSize
        < rh.size * rh.bucketSize
      rw [hk, Nat.and_pow_two_sub_one_eq_mod]
      exact mul_lt_mul_of_pos_right (Nat.mod_lt _ (Nat.two_pow_pos k)) hbs
    rw [if_neg (by omega : ¬ rh.size * rh.bucketSize ≤ FS_RHASH_ENTRY rh res.rid)] at h
    cases hpr : rhashProbe rh res.rid (FS_RHASH_ENTRY rh res.rid) with
    | found =>
      exact absurd hpr (rhashProbeAux_not_found rh.entries res.rid
        (rh.size * rh.bucketSize) habs hr rh.searchDist (FS_RHASH_ENTRY rh res.rid) none)
    | overfull =>
      rw [hpr] at h
      dsimp only at h
      have hwfD := rhash_double_wf rh ⟨⟨k, hk⟩, hbs, hlen, hpre⟩
      have habsD := rhash_double_absent rh res.rid hr habs
      obtain ⟨hc, hwf', hp', hsd', hlex', hfind', hmono', habs'⟩ :=
        ih (fs_rhash_double_size rh).1 rh' res c hwfD hr habsD h
      have henc : rhashEncode isURI z (fs_rhash_double_size rh).1 res
          = rhashEncode isURI z rh res :=
        rhashEncode_congr isURI z _ rh res rfl rfl
      refine ⟨hc, hwf', hp'.trans rfl, hsd'.trans rfl,
        hlex'.trans (by rw [henc]), hfind'.trans (by rw [henc]), ?_, ?_⟩
      · intro rid' e0 hne hr' hf
        exact hmono' rid' e0 hne hr' (rhash_double_find_pres rh k rid' e0 hk hbs hlen hr' hf)
      · intro rid' hne hr' hab
        exact habs' rid' hne hr' (rhash_double_absent rh rid' hr' hab)
    | empty new =>
      rw [hpr] at h
      dsimp only at h
      obtain ⟨hge, hltn, hbound, hzero⟩ :=
        rhashProbe_empty_loc rh res.rid (FS_RHASH_ENTRY rh res.rid) new hpr
      have hnewlen : new < rh.entries.length := by omega
      injection h with h
      rw [Prod.mk.injEq] at h
      obtain ⟨hc, hst⟩ := h
      subst hst
      subst hc
      refine ⟨rfl, ⟨⟨k, hk⟩, hbs, ?_, hpre⟩, rfl, rfl, rfl, ?_, ?_, ?_⟩
      · show (rh.entries.set new (rhashEncode isURI z rh res).1).length
          = rh.size * rh.bucketSize
        rw [List.length_set]
        exact hlen
      · show rhashFindAux (rh.entries.set new (rhashEncode isURI z rh res).1) res.rid
          (FS_RHASH_ENTRY rh res.rid) rh.searchDist
          = some (rhashEncode isURI z rh res).1
        have hmatch : (rh.entries.set new (rhashEncode isURI z rh res).1).getD
            (FS_RHASH_ENTRY rh res.rid + (new - FS_RHASH_ENTRY rh res.rid)) blankR
            = (rhashEncode isURI z rh res).1 := by
          rw [show FS_RHASH_ENTRY rh res.rid + (new - FS_RHASH_ENTRY rh res.rid)
              = new by omega]
          exact getD_set_self _ _ _ _ hnewlen
        rw [rhashFindAux_intro (rh.entries.set new (rhashEncode isURI z rh res).1)
          res.rid rh.searchDist (FS_RHASH_ENTRY rh res.rid)
          (new - FS_RHASH_ENTRY rh res.rid) (by omega)
          (by rw [hmatch, rhashEncode_rid]) ?_, hmatch]
        intro i' hi'
        rw [getD_set_ne _ _ _ _ _
          (by omega : new ≠ FS_RHASH_ENTRY rh res.rid + i')]
        exact getD_rid_ne rh.entries res.rid habs hr _
      · intro rid' e0 hne hr' hf
        obtain ⟨i, hi, hmda, he0, hbef⟩ := rhashFindAux_some rh.entries rid'
          rh.searchDist (FS_RHASH_ENTRY rh rid') e0 hf
        show rhashFindAux (rh.entries.set new (rhashEncode isURI z rh res).1) rid'
          (FS_RHASH_ENTRY rh rid') rh.searchDist = some e0
        have hposne : FS_RHASH_ENTRY rh rid' + i ≠ new := by
          intro hEq
          rw [hEq, hzero] at hmda
          exact hr' hmda.symm
        have hmatch : (rh.entries.set new (rhashEncode isURI z rh res).1).getD
            (FS_RHASH_ENTRY rh rid' + i) blankR
            = rh.entries.getD (FS_RHASH_ENTRY rh rid' + i) blankR :=
          getD_set_ne _ _ _ _ _ (fun hEq => hposne hEq.symm)
        rw [rhashFindAux_intro (rh.entries.set new (rhashEncode isURI z rh res).1)
          rid' rh.searchDist (FS_RHASH_ENTRY rh rid') i hi
          (by rw [hmatch]; exact hmda) ?_, hmatch, ← he0]
        intro i' hi'
        by_cases hEq : FS_RHASH_ENTRY rh rid' + i' = new
        · rw [hEq, getD_set_self _ _ _ _ hnewlen, rhashEncode_rid]
          exact fun hcon => hne hcon.symm
        · rw [getD_set_ne _ _ _ _ _ (fun hc => hEq hc.symm)]
          exact hbef i' hi'
      · intro rid' hne hr' hab e he
        rcases List.mem_or_eq_of_mem_set he with he | he
        · exact hab e he
        · rw [he, rhashEncode_rid]
          exact fun hc => hne hc.symm

/-- Putting a list of fresh, pairwise-distinct resources: the prefix
dictionary is unchanged, the lex file only grows, gets of untouched rids
are preserved, and every resource put is decodable from the final state
with its exact lexical form (and its exact attr when not prefix-coded). -/
theorem rhash_putAll_spec (isURI : Nat → Bool) (z : ZCodec) (fuel : Nat)
    (hz : ZCodecOK z) :
    ∀ (L : List FsResource) (rh rh' : FsRhash),
      RhashWF rh →
      (∀ r ∈ L, ValidRes r) →
      (∀ r ∈ L, RidAbsent rh r.rid) →
      L.Pairwise (fun a b => a.rid ≠ b.rid) →
      fs_rhash_putAll isURI z fuel rh L = some rh' →
      RhashWF rh' ∧ rh'.prefixes = rh.prefixes ∧
      (∃ app, rh'.lexFile = rh.lexFile ++ app) ∧
      (∀ rid' e0, rid' ≠ 0 → (∀ r ∈ L, rid' ≠ r.rid) →
        rhashFind rh rid' = some e0 → rhashFind rh' rid' = some e0) ∧
      (∀ r ∈ L, ∃ a, fs_rhash_get_r z rh' r.rid = some (a, r.lex) ∧
        (¬ rhashPrefixCoded rh.prefixes isURI r → a = r.attr)) := by
  intro L
  induction L with
  | nil =>
    intro rh rh' hwf hval habs hpw h
    injection h with h
    subst h
    exact ⟨hwf, rfl, ⟨[], by simp⟩, fun rid' e0 _ _ hf => hf,
      fun r hr => absurd hr (List.not_mem_nil r)⟩
  | cons r rs ih =>
    intro rh rh' hwf hval habs hpw h
    cases hp : fs_rhash_put_r isURI z fuel rh r with
    | none =>
      unfold fs_rhash_putAll at h
      rw [hp] at h
      cases h
    | some p =>
      obtain ⟨c, rh1⟩ := p
      obtain ⟨hc, hwf1, hp1, hsd1, hlex1, hfind1, hmono1, habs1⟩ :=
        rhash_put_spec isURI z fuel rh rh1 r c hwf (hval r (List.mem_cons_self r rs)).1
          (habs r (List.mem_cons_self r rs)) hp
      subst hc
      rw [putAll_cons_zero isURI z fuel rh rh1 r rs hp] at h
      have hhead : ∀ r'' ∈ rs, r.rid ≠ r''.rid := (List.pairwise_cons.mp hpw).1
      have habst : ∀ r' ∈ rs, RidAbsent rh1 r'.rid := fun r' hr' =>
        habs1 r'.rid (fun hEq => hhead r' hr' hEq.symm)
          (hval r' (List.mem_cons_of_mem r hr')).1
          (habs r' (List.mem_cons_of_mem r hr'))
      obtain ⟨hwf', hp', hlexE, hfindP, hget⟩ :=
        ih rh1 rh' hwf1 (fun r' hr' => hval r' (List.mem_cons_of_mem r hr'))
          habst (List.pairwise_cons.mp hpw).2 h
      obtain ⟨app0, happ0⟩ := rhashEncode_lex_extends isURI z rh r
      obtain ⟨app1, happ1⟩ := hlexE
      refine ⟨hwf', by rw [hp', hp1], ⟨app0 ++ app1, ?_⟩, ?_, ?_⟩
      · rw [happ1, hlex1, happ0, List.append_assoc]
      · intro rid' e0 h0 hnin hf
        exact hfindP rid' e0 h0 (fun r'' hr'' => hnin r'' (List.mem_cons_of_mem r hr''))
          (hmono1 rid' e0 (hnin r (List.mem_cons_self r rs)) h0 hf)
      · intro r' hr'
        rcases List.mem_cons.mp hr' with hEq | hmem
        · rw [hEq]
          obtain ⟨hrid0, hbytes, hlex31⟩ := hval r (List.mem_cons_self r rs)
          have hrt := rhashEncode_roundtrip isURI z rh r hz hbytes hlex31 hwf.2.2.2
          refine ⟨(rhashEncode isURI z rh r).1.aval, ?_, hrt.2.2⟩
          have hfind2 : rhashFind rh' r.rid = some (rhashEncode isURI z rh r).1 :=
            hfindP r.rid _ hrid0 hhead hfind1
          unfold fs_rhash_get_r
          rw [hfind2]
          dsimp only
          rw [show rh'.prefixes = rh.prefixes by rw [hp', hp1], happ1, hlex1]
          exact get_entry_mono rh.prefixes (rhashEncode isURI z rh r).2 app1 z _ _ hrt.2.1
        · obtain ⟨a, hga, hca⟩ := hget r' hmem
          exact ⟨a, hga, fun hnc => hca (by rw [hp1]; exact hnc)⟩

/-- C1 counterexample: putting the URI `http://example.org/x` (attr 7) with
the prefix `http://example.org/` registered makes `fs_rhash_put_r` store
the prefix code and the suffix byte over the `aval` union
(`rhash.c:486,508`), so the following `fs_rhash_get_r` returns the packed
value 30720 as the attr, not 7 — the round-trip preserves the lex but not
the attr, refuting the claim for the prefix-coded alphabet. -/
theorem rhash_prefix_put_get_attr_mismatch :
    (fs_rhash_putAll (fun _ => true) ⟨fun _ => none, fun _ _ => none⟩ 1
        ⟨1, 16, 32, 0, List.replicate 16 blankR, [],
          [[104, 116, 116, 112, 58, 47, 47, 101, 120, 97, 109, 112, 108, 101,
            46, 111, 114, 103, 47]], true⟩
        [⟨1024, 7, [104, 116, 116, 112, 58, 47, 47, 101, 120, 97, 109, 112,
          108, 101, 46, 111, 114, 103, 47, 120]⟩]).map
      (fun rh2 => fs_rhash_get_r ⟨fun _ => none, fun _ _ => none⟩ rh2 1024)
      = some (some (30720,
        [104, 116, 116, 112, 58, 47, 47, 101, 120, 97, 109, 112, 108, 101,
          46, 111, 114, 103, 47, 120])) ∧ (30720 : Nat) ≠ 7 := by
  constructor
  · decide
  · decide

/-- C1 (amended): ResourceHash round-trip.  For every list of resources
with pairwise-distinct rids fresh for the hash, after `fs_rhash_put_r`
stores each resource (under the exclusive lock the caller must hold),
`fs_rhash_get_r` with the same rid returns the identical `lex` for every
covered alphabet; the returned attr is also identical except for
prefix-coded URIs (dispositions `DISP_I_PREFIX`/`DISP_F_PREFIX`), whose
`aval` union the put overwrites with the prefix code and inline suffix
bytes. -/
theorem rhash_putAll_roundtrip (isURI : Nat → Bool) (z : ZCodec) (fuel : Nat)
    (rh rh' : FsRhash) (L : List FsResource)
    (hwf : RhashWF rh) (hz : ZCodecOK z)
    (hval : ∀ r ∈ L, ValidRes r)
    (habs : ∀ r ∈ L, RidAbsent rh r.rid)
    (hpw : L.Pairwise (fun a b => a.rid ≠ b.rid))
    (h : fs_rhash_putAll isURI z fuel rh L = some rh') :
    ∀ r ∈ L, ∃ a, fs_rhash_get_r z rh' r.rid = some (a, r.lex) ∧
      (¬ rhashPrefixCoded rh.prefixes isURI r → a = r.attr) :=
  (rhash_putAll_spec isURI z fuel hz L rh rh' hwf hval habs hpw h).2.2.2.2

/-- Witness for C1: one inline ASCII resource (rid 1024, attr 7, lex "A")
put into an empty one-bucket hash of two slots and read back. -/
theorem rhash_putAll_roundtrip_witness :
    ∃ a, fs_rhash_get_r ⟨fun _ => none, fun _ _ => none⟩
        ⟨1, 2, 4, 1, [⟨1024, 7, .bytes (padTo 15 [65]), 'i'⟩, blankR], [], [], true⟩
        (FsResource.mk 1024 7 [65]).rid
        = some (a, (FsResource.mk 1024 7 [65]).lex) ∧
      (¬ rhashPrefixCoded ([] : List (List Nat)) (fun _ => false)
          (FsResource.mk 1024 7 [65]) → a = (FsResource.mk 1024 7 [65]).attr) :=
  rhash_putAll_roundtrip (fun _ => false) ⟨fun _ => none, fun _ _ => none⟩ 1
    ⟨1, 2, 4, 0, [blankR, blankR], [], [], true⟩
    ⟨1, 2, 4, 1, [⟨1024, 7, .bytes (padTo 15 [65]), 'i'⟩, blankR], [], [], true⟩
    [⟨1024, 7, [65]⟩]
    ⟨⟨0, rfl⟩, by decide, rfl, by decide⟩
    (fun l out h => (nomatch h))
    (by intro r hr
        rw [List.mem_singleton] at hr
        subst hr
        exact (by decide :
          (1024 : Nat) ≠ 0 ∧ (∀ c ∈ [65], 0 < c ∧ c < 256) ∧
            ([65] : List Nat).length < 2 ^ 31))
    (by intro r hr
        rw [List.mem_singleton] at hr
        subst hr
        exact (by decide : ∀ e ∈ [blankR, blankR], e.rid ≠ 1024))
    (by decide) (by decide)
    (FsResource.mk 1024 7 [65]) (List.mem_singleton.mpr rfl)

end FourStore
